import Mathlib

set_option maxRecDepth 8000

/-! Verification development for the LaTeX repair-and-compile pipeline of the
auto-resume-maker backend (latex-compiler module and the resume route's
two-page guard).  The JavaScript functions are shallowly embedded as
executable Lean functions over `List Char` (a string is modelled as its
character list).  JavaScript regular expressions are modelled by equivalent
deterministic character scans; each such definition carries a comment naming
the regular expression it implements.  Effectful statements of the source
(console logging, file IO, network calls) are dropped or abstracted into
function parameters, as noted at each definition. -/

/-- jsWhitespace models the ASCII fragment of the JavaScript whitespace class
used by `trim`, `trimEnd` and the regex class backslash-s (space, tab,
newline, carriage return, vertical tab, form feed). -/
def jsWhitespace (c : Char) : Bool :=
  c = ' ' || c = '\t' || c = '\n' || c = '\r' || c = '\x0b' || c = '\x0c'

/-- trimCh models JavaScript `String.prototype.trim`. -/
def trimCh (l : List Char) : List Char :=
  ((l.dropWhile jsWhitespace).reverse.dropWhile jsWhitespace).reverse

/-- trimEndCh models JavaScript `String.prototype.trimEnd`. -/
def trimEndCh (l : List Char) : List Char :=
  (l.reverse.dropWhile jsWhitespace).reverse

/-- splitLinesCh models JavaScript `s.split('\n')` (the result is never
empty, and a trailing newline yields a trailing empty line). -/
def splitLinesCh : List Char → List (List Char)
  | [] => [[]]
  | c :: rest =>
    let r := splitLinesCh rest
    if c = '\n' then [] :: r
    else (c :: r.headD []) :: r.tail

/-- joinLinesCh models JavaScript `lines.join('\n')`. -/
def joinLinesCh : List (List Char) → List Char
  | [] => []
  | l :: ls => if ls.isEmpty then l else l ++ '\n' :: joinLinesCh ls

/-- subIndexes lists every index of `l` (including `l.length`) at which the
pattern `pat` occurs as a substring, in increasing order. -/
def subIndexes (l pat : List Char) : List Nat :=
  (List.range (l.length + 1)).filter (fun k => pat.isPrefixOf (l.drop k))

/-- indexOfCh models JavaScript `String.prototype.indexOf` (first occurrence
of a pattern), returning `none` for −1. -/
def indexOfCh (l pat : List Char) : Option Nat :=
  (subIndexes l pat).head?

/-- lastIndexOfCh models JavaScript `String.prototype.lastIndexOf` (last
occurrence of a pattern), returning `none` for −1. -/
def lastIndexOfCh (l pat : List Char) : Option Nat :=
  (subIndexes l pat).getLast?

/-- containsSub models JavaScript `String.prototype.includes`. -/
def containsSub (l pat : List Char) : Bool :=
  (indexOfCh l pat).isSome

/-- digitChar renders one decimal digit. -/
def digitChar (n : Nat) : Char := Char.ofNat (48 + n)

/-- natToDecGo renders a natural number in decimal with enough fuel. -/
def natToDecGo : Nat → Nat → List Char
  | 0, _ => []
  | fuel + 1, n =>
    if n < 10 then [digitChar n]
    else natToDecGo fuel (n / 10) ++ [digitChar (n % 10)]

/-- natToDec renders a natural number in decimal, as JavaScript string
interpolation of a number does. -/
def natToDec (n : Nat) : List Char := natToDecGo (n + 1) n

/-- parseDigits reads a maximal leading digit run, returning the parsed
number and the rest; `none` when there is no leading digit (models the
regex group of one or more digits). -/
def parseDigits (l : List Char) : Option (Nat × List Char) :=
  let run := l.takeWhile Char.isDigit
  if run.isEmpty then none
  else some (run.foldl (fun acc c => acc * 10 + (c.toNat - 48)) 0, l.drop run.length)

-- ── Markers used by the latex-compiler module ─────────────────────────

/-- endDocMarker is the end-of-document marker searched for by the
sanitizer. -/
def endDocMarker : List Char := "\\end{document}".data

/-- beginVerbatimMarker is the marker tested by the brace scanner. -/
def beginVerbatimMarker : List Char := "\\begin{verbatim}".data

/-- endVerbatimMarker is the marker tested by the brace scanner. -/
def endVerbatimMarker : List Char := "\\end{verbatim}".data

-- ── fixUnbalancedBraces (latex-compiler) ──────────────────────────────

/-- braceDepthGo is the scanning loop of `fixUnbalancedBraces`: a backslash
(not in last position) skips the following character; the verbatim markers
toggle the `inVerbatim` flag (note the toggling branches are unreachable
because the markers start with a backslash, exactly as in the source); an
unescaped brace adjusts the depth. -/
def braceDepthGo : List Char → Bool → Int → Int
  | [], _, d => d
  | c :: rest, v, d =>
    if c = '\\' ∧ rest ≠ [] then
      match rest with
      | _ :: rest2 => braceDepthGo rest2 v d
      | [] => d
    else if beginVerbatimMarker.isPrefixOf (c :: rest) then braceDepthGo rest true d
    else if endVerbatimMarker.isPrefixOf (c :: rest) then braceDepthGo rest false d
    else if v then braceDepthGo rest v d
    else if c = '{' then braceDepthGo rest v (d + 1)
    else if c = '}' then braceDepthGo rest v (d - 1)
    else braceDepthGo rest v d

/-- braceDepth is the net brace depth computed by `fixUnbalancedBraces`. -/
def braceDepth (l : List Char) : Int := braceDepthGo l false 0

/-- endOpenMarker is the fragment tested by the removal loop's 20-character
look-behind regex. -/
def endOpenMarker : List Char := ['\\', 'e', 'n', 'd', '{']

/-- endsWithOpenEnd models the test of the regex backslash-end-open-brace
followed by non-close-brace characters up to the end of the look-behind
window: the window ends with an unclosed `\end{...}` token. -/
def endsWithOpenEnd (l : List Char) : Bool :=
  match lastIndexOfCh l endOpenMarker with
  | none => false
  | some k => !((l.drop (k + endOpenMarker.length)).contains '}')

/-- removeExcess is the removal loop of `fixUnbalancedBraces` for an
over-closed document: remove up to `n` closing braces from the end of the
content, skipping (stopping at) a brace that terminates an `\end{...}`. -/
def removeExcess : Nat → List Char → List Char
  | 0, l => l
  | n + 1, l =>
    match lastIndexOfCh l ['}'] with
    | none => l
    | some k =>
      let windowStart := k - 20
      let before := (l.take k).drop windowStart
      if endsWithOpenEnd before then l
      else removeExcess n (l.take k ++ l.drop (k + 1))

/-- fixUnbalancedBraces counts braces (skipping escaped characters) and
repairs imbalance: a positive depth appends that many closing braces (plus a
newline) immediately before the last `\end{document}` (or at the very end
when the marker is absent); a negative depth removes excess closing braces
from the end of the content before the marker. -/
def fixUnbalancedBraces (latex : List Char) : List Char :=
  let depth := braceDepth latex
  if depth > 0 then
    let closingBraces := List.replicate depth.toNat '}'
    match lastIndexOfCh latex endDocMarker with
    | some endDocIdx =>
      latex.take endDocIdx ++ closingBraces ++ '\n' :: latex.drop endDocIdx
    | none => latex ++ closingBraces
  else if depth < 0 then
    let pieces := match lastIndexOfCh latex endDocMarker with
      | some endDocIdx => (latex.take endDocIdx, latex.drop endDocIdx)
      | none => (latex, ([] : List Char))
    removeExcess (-depth).toNat pieces.1 ++ pieces.2
  else latex

-- ── Claim-side brace counting ─────────────────────────────────────────

/-- nonEscapedDepthGo counts non-backslash-escaped braces as the spec's
brace invariant describes: a backslash escapes the following character;
every other `{` counts +1 and `}` counts −1. -/
def nonEscapedDepthGo : List Char → Int → Int
  | [], d => d
  | c :: rest, d =>
    if c = '\\' ∧ rest ≠ [] then
      match rest with
      | _ :: rest2 => nonEscapedDepthGo rest2 d
      | [] => d
    else if c = '{' then nonEscapedDepthGo rest (d + 1)
    else if c = '}' then nonEscapedDepthGo rest (d - 1)
    else nonEscapedDepthGo rest d

/-- nonEscapedDepth is the net non-escaped brace depth of a document,
following the wording of the spec's brace invariant. -/
def nonEscapedDepth (l : List Char) : Int := nonEscapedDepthGo l 0

-- ── fixUnescapedSpecialChars (latex-compiler) ─────────────────────────

/-- headIsDigit tests whether a list starts with a decimal digit (the
look-ahead of the hash-escaping regex). -/
def headIsDigit : List Char → Bool
  | c :: _ => c.isDigit
  | [] => false

/-- escapeHashGo models the per-line replace of the regex: hash not
preceded by a backslash and not followed by a digit becomes an escaped
hash; `prev` tracks the preceding character of the original line. -/
def escapeHashGo : Option Char → List Char → List Char
  | _, [] => []
  | prev, c :: rest =>
    if c = '#' then
      if prev = some '\\' then '#' :: escapeHashGo (some '#') rest
      else if headIsDigit rest then '#' :: escapeHashGo (some '#') rest
      else '\\' :: '#' :: escapeHashGo (some '#') rest
    else c :: escapeHashGo (some c) rest

/-- escapeHash applies the hash-escaping replace to one line. -/
def escapeHash (line : List Char) : List Char := escapeHashGo none line

/-- skipLinePrefixes are the trimmed-line prefixes that make
`fixUnescapedSpecialChars` skip a line. -/
def skipLinePrefixes : List (List Char) :=
  [r"%".data, r"\def".data, r"\newcommand".data, r"\renewcommand".data,
   r"\usepackage".data, r"\documentclass".data, r"\input".data, r"\include".data]

/-- skippedLine tests whether a line is left untouched by
`fixUnescapedSpecialChars` (comment lines, command definitions, preamble
commands). -/
def skippedLine (line : List Char) : Bool :=
  let trimmed := trimCh line
  skipLinePrefixes.any (fun p => p.isPrefixOf trimmed)

/-- perLineEsc is the map applied to each line by
`fixUnescapedSpecialChars`. -/
def perLineEsc (line : List Char) : List Char :=
  if skippedLine line then line else escapeHash line

/-- fixUnescapedSpecialChars models the first sanitizer pass: split into
lines, skip comment/definition/preamble lines, and escape unescaped hash
characters not followed by a digit on the remaining lines.  (The source
deliberately leaves ampersand, percent, dollar and underscore unchanged,
as its comments explain.) -/
def fixUnescapedSpecialChars (latex : List Char) : List Char :=
  joinLinesCh ((splitLinesCh latex).map perLineEsc)

-- ── fixCommonCommandErrors (latex-compiler) ───────────────────────────

/-- headIsOpenBrace tests whether a list starts with an opening brace. -/
def headIsOpenBrace : List Char → Bool
  | '{' :: _ => true
  | _ => false

/-- headIs tests whether a list starts with a given character. -/
def headIs (b : Char) : List Char → Bool
  | c :: _ => c = b
  | [] => false

/-- doubledCmdWords is the command alternation of the doubled-backslash
repair regex. -/
def doubledCmdWords : List (List Char) :=
  [r"section".data, r"subsection".data, r"textbf".data, r"textit".data,
   r"href".data, r"item".data, r"begin".data, r"end".data, r"vspace".data,
   r"hspace".data, r"newpage".data, r"noindent".data]

/-- isSpaceTab models the character class of spaces and tabs. -/
def isSpaceTab (c : Char) : Bool := c = ' ' || c = '\t'

/-- fixDoubledBackslashLine models one line of the anchored multiline
regex: optional leading spaces/tabs, a doubled backslash, a structural
command word, and an opening brace; the doubled backslash is collapsed. -/
def fixDoubledBackslashLine (line : List Char) : List Char :=
  let ws := line.takeWhile isSpaceTab
  let rest := line.drop ws.length
  if headIs '\\' rest ∧ headIs '\\' (rest.drop 1) then
    let r := rest.drop 2
    if doubledCmdWords.any (fun w => w.isPrefixOf r && headIsOpenBrace (r.drop w.length)) then
      ws ++ '\\' :: r
    else line
  else line

/-- secCmdWords is the command alternation of the line-break-removal
regex. -/
def secCmdWords : List (List Char) :=
  [r"section".data, r"subsection".data, r"begin".data]

/-- lastNlSplit finds, inside a whitespace run, the latest newline that is
followed only by spaces/tabs, returning that trailing space/tab part
(this resolves the greedy whitespace star before the literal newline). -/
def lastNlSplit (run : List Char) : Option (List Char) :=
  let revTail := run.reverse.takeWhile isSpaceTab
  match run.reverse.drop revTail.length with
  | '\n' :: _ => some revTail.reverse
  | _ => none

/-- firstPrefWord returns the first word of the alternation list that is a
prefix of the input. -/
def firstPrefWord (words : List (List Char)) (r : List Char) : Option (List Char) :=
  words.find? (fun w => w.isPrefixOf r)

/-- fbsGo is the global scan of the regex: doubled backslash, a whitespace
run, a newline, optional spaces/tabs, then a backslash command from the
list; the match is replaced by a newline followed by the captured
spaces/tabs and command. -/
def fbsGo : Nat → List Char → List Char
  | 0, l => l
  | _ + 1, [] => []
  | fuel + 1, c :: rest =>
    if c = '\\' ∧ headIs '\\' rest then
      let rest2 := rest.drop 1
      let run := rest2.takeWhile jsWhitespace
      let after := rest2.drop run.length
      (match lastNlSplit run, after with
       | some tailWs, '\\' :: r =>
         (match firstPrefWord secCmdWords r with
          | some w => '\n' :: (tailWs ++ '\\' :: (w ++ fbsGo fuel (r.drop w.length)))
          | none => c :: fbsGo fuel rest)
       | _, _ => c :: fbsGo fuel rest)
    else c :: fbsGo fuel rest

/-- fixBsBeforeSection applies the line-break-removal regex globally. -/
def fixBsBeforeSection (l : List Char) : List Char := fbsGo l.length l

/-- textbfOpen is the literal opening of a bold command. -/
def textbfOpen : List Char := ['\\', 't', 'e', 'x', 't', 'b', 'f', '{']

/-- textitOpen is the literal opening of an italic command. -/
def textitOpen : List Char := ['\\', 't', 'e', 'x', 't', 'i', 't', '{']

/-- removeEmptyCmdGo is the global scan removing an emphasis command whose
argument group contains only whitespace. -/
def removeEmptyCmdGo (pat : List Char) : Nat → List Char → List Char
  | 0, l => l
  | _ + 1, [] => []
  | fuel + 1, c :: rest =>
    if pat.isPrefixOf (c :: rest) then
      let body := (c :: rest).drop pat.length
      let ws := body.takeWhile jsWhitespace
      match body.drop ws.length with
      | '}' :: tl => removeEmptyCmdGo pat fuel tl
      | _ => c :: removeEmptyCmdGo pat fuel rest
    else c :: removeEmptyCmdGo pat fuel rest

/-- removeEmptyCmd removes empty emphasis commands of the given opening. -/
def removeEmptyCmd (pat : List Char) (l : List Char) : List Char :=
  removeEmptyCmdGo pat l.length l

-- ── Titlesec repair suite (latex-compiler) ────────────────────────────

/-- cbgGo is the loop of `countBraceGroups`: a backslash (not in last
position) skips the next character; an opening brace at depth 0 opens a new
top-level group. -/
def cbgGo : List Char → Nat → Int → Nat × Int
  | [], g, d => (g, d)
  | '\\' :: _ :: rest, g, d => cbgGo rest g d
  | '{' :: rest, g, d => cbgGo rest (if d = 0 then g + 1 else g) (d + 1)
  | '}' :: rest, g, d => cbgGo rest g (d - 1)
  | _ :: rest, g, d => cbgGo rest g d

/-- countBraceGroups counts top-level brace groups and the final depth of a
string, skipping escaped braces. -/
def countBraceGroups (text : List Char) : Nat × Int := cbgGo text 0 0

/-- skipBracketGo is the optional-argument skipping loop of the group
scanner: consume characters while the square-bracket depth is positive (no
escape handling, as in the source).  Returns consumed count and the rest. -/
def skipBracketGo : Nat → List Char → Int → Nat × List Char
  | 0, l, _ => (0, l)
  | _ + 1, [], _ => (0, [])
  | fuel + 1, c :: rest, bd =>
    let bd2 := if c = '[' then bd + 1 else if c = ']' then bd - 1 else bd
    if bd2 > 0 then
      let p := skipBracketGo fuel rest bd2
      (p.1 + 1, p.2)
    else (1, rest)

/-- SgState is the result of the brace-group scanning loop of
`collapseTitlesecCommand`. -/
structure SgState where
  consumed : Nat
  groups : Nat
  depth : Int
  foundEnd : Bool
deriving DecidableEq, Repr

/-- sgGo is the brace-group scanning loop of `collapseTitlesecCommand`:
scan forward while fewer than `expected` top-level groups were opened,
skipping escaped characters and depth-0 optional bracket arguments.  (As in
the source, the `foundEnd` flag can never be set, because the closing-brace
branch requires at least `expected` groups while the loop guard requires
fewer.) -/
def sgGo (expected : Nat) : Nat → List Char → Nat → Int → SgState
  | 0, _, g, d => ⟨0, g, d, false⟩
  | _ + 1, [], g, d => ⟨0, g, d, false⟩
  | fuel + 1, c :: rest, g, d =>
    if g ≥ expected then ⟨0, g, d, false⟩
    else if c = '\\' ∧ rest ≠ [] then
      let r := sgGo expected fuel (rest.drop 1) g d
      ⟨r.consumed + 2, r.groups, r.depth, r.foundEnd⟩
    else if c = '[' ∧ d = 0 then
      let p := skipBracketGo rest.length rest 1
      let r := sgGo expected fuel p.2 g d
      ⟨1 + p.1 + r.consumed, r.groups, r.depth, r.foundEnd⟩
    else if c = '{' then
      let r := sgGo expected fuel rest (if d = 0 then g + 1 else g) (d + 1)
      ⟨r.consumed + 1, r.groups, r.depth, r.foundEnd⟩
    else if c = '}' then
      if d - 1 = 0 ∧ g ≥ expected then ⟨1, g, d - 1, true⟩
      else
        let r := sgGo expected fuel rest g (d - 1)
        ⟨r.consumed + 1, r.groups, r.depth, r.foundEnd⟩
    else
      let r := sgGo expected fuel rest g d
      ⟨r.consumed + 1, r.groups, r.depth, r.foundEnd⟩

/-- findCmdMatch models one `exec` of the regex backslash-name,
whitespace-star, open-brace: it returns the relative match position and the
length of the whitespace run between the command name and the brace. -/
def findCmdMatch (namePat : List Char) : Nat → List Char → Option (Nat × Nat)
  | 0, _ => none
  | _ + 1, [] => none
  | fuel + 1, c :: rest =>
    let tryHere :=
      if ('\\' :: namePat).isPrefixOf (c :: rest) then
        let after := (c :: rest).drop (1 + namePat.length)
        let ws := after.takeWhile jsWhitespace
        headIsOpenBrace (after.drop ws.length)
      else false
    if tryHere then
      let after := (c :: rest).drop (1 + namePat.length)
      some (0, (after.takeWhile jsWhitespace).length)
    else
      match findCmdMatch namePat fuel rest with
      | some p => some (p.1 + 1, p.2)
      | none => none

/-- hasBlankInside models the blank-line test: a newline followed, after
only whitespace, by another newline. -/
def hasBlankInside : List Char → Bool
  | [] => false
  | '\n' :: rest =>
    if (rest.takeWhile jsWhitespace).contains '\n' then true
    else hasBlankInside rest
  | _ :: rest => hasBlankInside rest

/-- collapseBlankRuns models the global replace of a blank-line run (a
newline, whitespace, and a last newline) by a single newline. -/
def collapseBlankRuns : Nat → List Char → List Char
  | 0, l => l
  | _ + 1, [] => []
  | fuel + 1, '\n' :: rest =>
    let run := rest.takeWhile jsWhitespace
    if run.contains '\n' then
      let k := ((subIndexes run ['\n']).getLast?).getD 0
      '\n' :: collapseBlankRuns fuel (rest.drop (k + 1))
    else '\n' :: collapseBlankRuns fuel rest
  | fuel + 1, c :: rest => c :: collapseBlankRuns fuel rest

/-- collapsePairNl models the global replace of character `a`, whitespace
containing a newline, character `b`, by the two characters adjacent. -/
def collapsePairNl (a b : Char) : Nat → List Char → List Char
  | 0, l => l
  | _ + 1, [] => []
  | fuel + 1, c :: rest =>
    if c = a then
      let run := rest.takeWhile jsWhitespace
      if run.contains '\n' ∧ headIs b (rest.drop run.length) then
        a :: b :: collapsePairNl a b fuel (rest.drop (run.length + 1))
      else c :: collapsePairNl a b fuel rest
    else c :: collapsePairNl a b fuel rest

/-- collapseTitlesecGo is the exec loop of `collapseTitlesecCommand`: the
regex scans the original string while edits are applied to the result at
offset-adjusted positions, exactly as in the source. -/
def collapseTitlesecGo (namePat : List Char) (expected : Nat) :
    Nat → List Char → Nat → List Char → Int → List Char
  | 0, _, _, result, _ => result
  | fuel + 1, origRest, origPos, result, offset =>
    match findCmdMatch namePat origRest.length origRest with
    | none => result
    | some (rel, wsLen) =>
      let m := origPos + rel
      let startIdx := (Int.ofNat m + offset).toNat
      let cmdTextLen := 1 + namePat.length
      let afterCmd := startIdx + cmdTextLen
      let tailPart := result.drop afterCmd
      let sg := sgGo expected tailPart.length tailPart 0 0
      let endPos := afterCmd + sg.consumed
      let nextOrigPos := m + cmdTextLen + wsLen + 1
      let nextOrigRest := origRest.drop (rel + cmdTextLen + wsLen + 1)
      if sg.foundEnd ∨ sg.groups ≥ expected then
        let fullCmd := (result.take endPos).drop startIdx
        if hasBlankInside fullCmd then
          let c0 := collapseBlankRuns fullCmd.length fullCmd
          let c1 := collapsePairNl '}' '{' c0.length c0
          let c2 := collapsePairNl '}' '[' c1.length c1
          let collapsed := collapsePairNl ']' '{' c2.length c2
          let result2 := result.take startIdx ++ collapsed ++ result.drop endPos
          let offset2 := offset + Int.ofNat collapsed.length - Int.ofNat fullCmd.length
          collapseTitlesecGo namePat expected fuel nextOrigRest nextOrigPos result2 offset2
        else collapseTitlesecGo namePat expected fuel nextOrigRest nextOrigPos result offset
      else collapseTitlesecGo namePat expected fuel nextOrigRest nextOrigPos result offset

/-- titleformatName is the first collapse target. -/
def titleformatName : List Char := r"titleformat".data

/-- titlespacingName is the second collapse target. -/
def titlespacingName : List Char := r"titlespacing".data

/-- titlespacingStarName is the third collapse target (the starred form;
its regex source escapes the star). -/
def titlespacingStarName : List Char := r"titlespacing*".data

/-- collapseTitlesecCommand collapses blank lines inside one titlesec
command family; titleformat expects 6 brace groups, titlespacing 4. -/
def collapseTitlesecCommand (namePat : List Char) (latex : List Char) : List Char :=
  let expected := if titleformatName.isPrefixOf namePat then 6 else 4
  collapseTitlesecGo namePat expected (latex.length + 1) latex 0 latex 0

/-- titleformatWord is the backslash-titleformat token. -/
def titleformatWord : List Char := r"\titleformat".data

/-- removeWordWs is the global replace of a word followed by optional
whitespace with the empty string. -/
def removeWordWs (word : List Char) : Nat → List Char → List Char
  | 0, l => l
  | _ + 1, [] => []
  | fuel + 1, c :: rest =>
    if word.isPrefixOf (c :: rest) then
      let after := (c :: rest).drop word.length
      removeWordWs word fuel (after.drop (after.takeWhile jsWhitespace).length)
    else c :: removeWordWs word fuel rest

/-- upperWords are the case-transformation commands stripped from
titleformat lines. -/
def upperWords : List (List Char) :=
  [r"\MakeUppercase".data, r"\MakeLowercase".data, r"\uppercase".data, r"\lowercase".data]

/-- fixUppercaseInTitleformat strips bare case-transformation commands from
every line containing a titleformat command. -/
def fixUppercaseInTitleformat (latex : List Char) : List Char :=
  joinLinesCh ((splitLinesCh latex).map (fun line =>
    if containsSub line titleformatWord then
      upperWords.foldl (fun acc w => removeWordWs w acc.length acc) line
    else line))

/-- vtStopWords are the trimmed-line prefixes at which the continuation
collection of `validateTitleformatArgs` stops. -/
def vtStopWords : List (List Char) :=
  [r"\titlespacing".data, r"\titleformat".data,
   ['\\', 'b', 'e', 'g', 'i', 'n', '{'],
   r"\section".data, r"\subsection".data, r"\renewcommand".data,
   r"\newcommand".data, r"\setlength".data, r"\pagestyle".data]

/-- lineIsTf tests the anchored regex: optional whitespace then a
titleformat command at the start of a line. -/
def lineIsTf (line : List Char) : Bool :=
  titleformatWord.isPrefixOf (line.dropWhile jsWhitespace)

/-- collectTf is the continuation-line collection loop of
`validateTitleformatArgs`: append following lines until a stop command, a
complete command (5 balanced groups), or a blank line outside braces. -/
def collectTf : Nat → List Char → List (List Char) → List Char × List (List Char)
  | 0, fullCmd, rest => (fullCmd, rest)
  | _ + 1, fullCmd, [] => (fullCmd, [])
  | fuel + 1, fullCmd, next :: more =>
    let nextLine := trimCh next
    if vtStopWords.any (fun w => w.isPrefixOf nextLine) then (fullCmd, next :: more)
    else
      let bc := countBraceGroups fullCmd
      if bc.1 ≥ 5 ∧ bc.2 = 0 then (fullCmd, next :: more)
      else if nextLine = [] then
        if (countBraceGroups fullCmd).2 > 0 then collectTf fuel (fullCmd ++ [' ']) more
        else (fullCmd, next :: more)
      else collectTf fuel (fullCmd ++ ' ' :: nextLine) more

/-- fixTfGroups appends missing empty groups, or closing braces, to a
collected titleformat command. -/
def fixTfGroups (fullCmd : List Char) : List Char :=
  let bi := countBraceGroups fullCmd
  if bi.1 < 5 ∧ bi.2 = 0 then
    trimEndCh fullCmd ++ (List.replicate (5 - bi.1) ['{', '}']).flatten
  else if bi.2 > 0 then trimEndCh fullCmd ++ List.replicate bi.2.toNat '}'
  else fullCmd

/-- vtfGo is the outer loop of `validateTitleformatArgs`. -/
def vtfGo : Nat → List (List Char) → List (List Char)
  | 0, lines => lines
  | _ + 1, [] => []
  | fuel + 1, line :: rest =>
    if lineIsTf line then
      let p := collectTf rest.length line rest
      fixTfGroups p.1 :: vtfGo fuel p.2
    else line :: vtfGo fuel rest

/-- validateTitleformatArgs checks every titleformat command for its five
required brace groups, collecting continuation lines and repairing the
group count. -/
def validateTitleformatArgs (latex : List Char) : List Char :=
  let lines := splitLinesCh latex
  joinLinesCh (vtfGo lines.length lines)

/-- fixTitlesecCommands is the titlesec repair pipeline. -/
def fixTitlesecCommands (latex : List Char) : List Char :=
  let out := collapseTitlesecCommand titleformatName latex
  let out := collapseTitlesecCommand titlespacingName out
  let out := collapseTitlesecCommand titlespacingStarName out
  let out := fixUppercaseInTitleformat out
  validateTitleformatArgs out

/-- fixCommonCommandErrors models the third sanitizer pass: collapse
doubled backslashes before structural commands, remove line breaks before
section commands, drop empty emphasis commands, and repair titlesec
commands. -/
def fixCommonCommandErrors (latex : List Char) : List Char :=
  let out := joinLinesCh ((splitLinesCh latex).map fixDoubledBackslashLine)
  let out := fixBsBeforeSection out
  let out := removeEmptyCmd textbfOpen out
  let out := removeEmptyCmd textitOpen out
  fixTitlesecCommands out

-- ── removeMarkdownArtifacts (latex-compiler) ──────────────────────────

/-- backquoteChar is the markdown inline-code delimiter. -/
def backquoteChar : Char := Char.ofNat 96

/-- textttOpen is the literal opening of a teletype command. -/
def textttOpen : List Char := ['\\', 't', 'e', 'x', 't', 't', 't', '{']

/-- starStarHead tests for a leading double star. -/
def starStarHead : List Char → Bool
  | '*' :: '*' :: _ => true
  | _ => false

/-- mdBoldGo is the global replace of double-star, non-star content,
double-star by a bold command. -/
def mdBoldGo : Nat → List Char → List Char
  | 0, l => l
  | _ + 1, [] => []
  | fuel + 1, c :: rest =>
    if c = '*' ∧ headIs '*' rest then
      let rest2 := rest.drop 1
      let run := rest2.takeWhile (· != '*')
      let after := rest2.drop run.length
      if run ≠ [] ∧ starStarHead after then
        textbfOpen ++ run ++ '}' :: mdBoldGo fuel (after.drop 2)
      else c :: mdBoldGo fuel rest
    else c :: mdBoldGo fuel rest

/-- mdItalGo is the global replace of a single star (not preceded or
followed by another star), non-star content, single star, by an italic
command; `prev` tracks the preceding character of the original string. -/
def mdItalGo : Option Char → Nat → List Char → List Char
  | _, 0, l => l
  | _, _ + 1, [] => []
  | prev, fuel + 1, c :: rest =>
    if c = '*' then
      let run := rest.takeWhile (· != '*')
      let after := rest.drop run.length
      if prev ≠ some '*' ∧ run ≠ [] ∧ headIs '*' after ∧ ¬ headIs '*' (after.drop 1) then
        textitOpen ++ run ++ '}' :: mdItalGo (some '*') fuel (after.drop 1)
      else c :: mdItalGo (some '*') fuel rest
    else c :: mdItalGo (some c) fuel rest

/-- mdCodeGo is the global replace of backquote, non-backquote content,
backquote by a teletype command. -/
def mdCodeGo : Nat → List Char → List Char
  | 0, l => l
  | _ + 1, [] => []
  | fuel + 1, c :: rest =>
    if c = backquoteChar then
      let run := rest.takeWhile (· != backquoteChar)
      let after := rest.drop run.length
      if run ≠ [] ∧ after ≠ [] then
        textttOpen ++ run ++ '}' :: mdCodeGo fuel (after.drop 1)
      else c :: mdCodeGo fuel rest
    else c :: mdCodeGo fuel rest

/-- removeMarkdownArtifacts models the fourth sanitizer pass: convert bold,
italic and inline-code markdown leftovers into LaTeX commands. -/
def removeMarkdownArtifacts (latex : List Char) : List Char :=
  let out := mdBoldGo latex.length latex
  let out := mdItalGo none out.length out
  mdCodeGo out.length out

-- ── sanitizeLatex (latex-compiler) ────────────────────────────────────

/-- sanitizeLatexCh models `sanitizeLatex`: an empty document is returned
unchanged; otherwise the four passes run in order (special characters,
brace balance, command errors, markdown artifacts). -/
def sanitizeLatexCh (latex : List Char) : List Char :=
  if latex = [] then latex
  else
    let out := fixUnescapedSpecialChars latex
    let out := fixUnbalancedBraces out
    let out := fixCommonCommandErrors out
    removeMarkdownArtifacts out

-- ── attemptLatexFix (latex-compiler) ──────────────────────────────────

/-- mainTexMarker is the log-position marker of the engine diagnostics. -/
def mainTexMarker : List Char := r"main.tex:".data

/-- missingBracePat is the first diagnostic pattern. -/
def missingBracePat : List Char := "Missing \x7b inserted".data

/-- runawayArgPat is a titlesec-related diagnostic pattern. -/
def runawayArgPat : List Char := r"Runaway argument".data

/-- ttlSpacingPat is a titlesec-internal diagnostic pattern. -/
def ttlSpacingPat : List Char := r"ttl@spacing".data

/-- ttlFormatPat is a titlesec-internal diagnostic pattern. -/
def ttlFormatPat : List Char := r"ttl@format".data

/-- ttlRowPat is a titlesec-internal diagnostic pattern. -/
def ttlRowPat : List Char := r"ttl@row".data

/-- paragraphEndedPat is the blank-line diagnostic pattern. -/
def paragraphEndedPat : List Char := r"Paragraph ended before".data

/-- ttlAtPat excludes titlesec-internal paragraph diagnostics. -/
def ttlAtPat : List Char := r"ttl@".data

/-- undefinedCtrlSeqPat is the unknown-command diagnostic pattern. -/
def undefinedCtrlSeqPat : List Char := r"Undefined control sequence".data

/-- extraBracePat is the unmatched-brace diagnostic pattern. -/
def extraBracePat : List Char := "Extra \x7d".data

/-- forgottenDollarPat is the unmatched-math diagnostic pattern. -/
def forgottenDollarPat : List Char := r"forgotten $".data

/-- missingDollarPat is the math-mode diagnostic pattern. -/
def missingDollarPat : List Char := r"Missing $ inserted".data

/-- findMissingBraceLineRef models the line-number regex of the
missing-brace branch: the marker, digits, a colon, whitespace, then the
diagnostic text. -/
def findMissingBraceLineRef : Nat → List Char → Option Nat
  | 0, _ => none
  | _ + 1, [] => none
  | fuel + 1, c :: rest =>
    if mainTexMarker.isPrefixOf (c :: rest) then
      match parseDigits ((c :: rest).drop mainTexMarker.length) with
      | some (n, ':' :: r3) =>
        if missingBracePat.isPrefixOf (r3.dropWhile jsWhitespace) then some n
        else findMissingBraceLineRef fuel rest
      | _ => findMissingBraceLineRef fuel rest
    else findMissingBraceLineRef fuel rest

/-- findLineRef models the plain line-number regex: the marker, digits and
a colon. -/
def findLineRef : Nat → List Char → Option Nat
  | 0, _ => none
  | _ + 1, [] => none
  | fuel + 1, c :: rest =>
    if mainTexMarker.isPrefixOf (c :: rest) then
      match parseDigits ((c :: rest).drop mainTexMarker.length) with
      | some (n, ':' :: _) => some n
      | _ => findLineRef fuel rest
    else findLineRef fuel rest

/-- isWordChar models the regex word-character class. -/
def isWordChar (c : Char) : Bool := c.isAlphanum || c = '_'

/-- findBsWord finds the first backslash followed by a nonempty word. -/
def findBsWord : List Char → Option (List Char)
  | [] => none
  | '\\' :: rest =>
    let w := rest.takeWhile isWordChar
    if w ≠ [] then some w else findBsWord rest
  | _ :: rest => findBsWord rest

/-- ucsMatch models the undefined-control-sequence regex: the marker,
digits, a colon, then (on the same line, since the dot class does not cross
newlines) the diagnostic phrase followed by a backslash command name.  The
scan resolves the match left-to-right, which coincides with the regex
engine whenever the phrase occurs once on the line. -/
def ucsMatch : Nat → List Char → Option (List Char)
  | 0, _ => none
  | _ + 1, [] => none
  | fuel + 1, c :: rest =>
    if mainTexMarker.isPrefixOf (c :: rest) then
      match parseDigits ((c :: rest).drop mainTexMarker.length) with
      | some (_, ':' :: r3) =>
        let lineRest := r3.takeWhile (· != '\n')
        match indexOfCh lineRest undefinedCtrlSeqPat with
        | some i =>
          match findBsWord (lineRest.drop (i + undefinedCtrlSeqPat.length)) with
          | some w => some w
          | none => ucsMatch fuel rest
        | none => ucsMatch fuel rest
      | _ => ucsMatch fuel rest
    else ucsMatch fuel rest

/-- b1Desc is the removed-trailing-line-break description. -/
def b1Desc (i : Nat) (original newLine : List Char) : List Char :=
  r"Removed trailing \\ from line ".data ++ natToDec (i + 1) ++ r": ".data
    ++ '"' :: (trimCh original ++ '"' :: ' ' :: '→' :: ' ' :: '"' :: (trimCh newLine ++ ['"']))

/-- b1FixLines is the line window loop of the missing-brace branch: remove
a trailing doubled backslash from lines in the window. -/
def b1FixLines : Nat → Nat → Nat → List (List Char) → List (List Char) →
    List (List Char) × List (List Char)
  | 0, _, _, lines, fixes => (lines, fixes)
  | fuel + 1, i, stop, lines, fixes =>
    if i < stop then
      let li := ((lines.get? i).getD [])
      if li ≠ [] ∧ (['\\', '\\']).isSuffixOf (trimEndCh li) then
        let t := trimEndCh li
        let newLi := t.take (t.length - 2)
        b1FixLines fuel (i + 1) stop (lines.set i newLi) (fixes ++ [b1Desc i li newLi])
      else b1FixLines fuel (i + 1) stop lines fixes
    else (lines, fixes)

/-- removedBsDesc is the global line-break-removal description. -/
def removedBsDesc : List Char := r"Removed \\ before \section/\subsection/\begin commands".data

/-- branchMissingBrace models the missing-brace fix family. -/
def branchMissingBrace (latex errorLog : List Char) (fixes : List (List Char)) :
    List Char × List (List Char) :=
  if containsSub errorLog missingBracePat then
    let p1 :=
      match findMissingBraceLineRef errorLog.length errorLog with
      | some errorLine =>
        let lines := splitLinesCh latex
        if 0 < errorLine ∧ errorLine ≤ lines.length then
          let q := b1FixLines 3 (errorLine - 3) errorLine lines fixes
          (joinLinesCh q.1, q.2)
        else (latex, fixes)
      | none => (latex, fixes)
    let latex3 := fixBsBeforeSection p1.1
    if latex3 ≠ p1.1 then (latex3, p1.2 ++ [removedBsDesc])
    else (latex3, p1.2)
  else (latex, fixes)

/-- lineDepthPlain is the per-line brace counting of the runaway branch
(no escape handling, as in the source). -/
def lineDepthPlain (line : List Char) : Int :=
  line.foldl (fun d c => if c = '{' then d + 1 else if c = '}' then d - 1 else d) 0

/-- titleCmdAt tests the titlesec-command regex at one position. -/
def titleCmdAt (l : List Char) : Bool :=
  if (r"\title".data).isPrefixOf l then
    let r := l.drop 6
    let r2 := if (r"format".data).isPrefixOf r then some (r.drop 6)
              else if (r"spacing".data).isPrefixOf r then some (r.drop 7)
              else none
    match r2 with
    | some r3 =>
      let r4 := if headIs '*' r3 then r3.drop 1 else r3
      headIsOpenBrace (r4.dropWhile jsWhitespace)
    | none => false
  else false

/-- hasTitleCmd tests the titlesec-command regex anywhere in a line. -/
def hasTitleCmd : List Char → Bool
  | [] => false
  | c :: rest => titleCmdAt (c :: rest) || hasTitleCmd rest

/-- collapsedAtDesc is the merge description of the runaway branch. -/
def collapsedAtDesc (i : Nat) : List Char :=
  r"Collapsed multi-line titlesec command at line ".data ++ natToDec (i + 1)

/-- titlesecFmtDesc is the overall description of the runaway branch. -/
def titlesecFmtDesc : List Char := r"Fixed titlesec command formatting".data

/-- b2Merge is the multi-line merge loop of the runaway branch: append
following lines (deleting blank ones) while the depth stays positive. -/
def b2Merge : Nat → List Char → Int → List (List Char) → List Char × List (List Char)
  | 0, combined, _, rest => (combined, rest)
  | _ + 1, combined, _, [] => (combined, [])
  | fuel + 1, combined, d, next :: more =>
    if d > 0 then
      let nextLine := trimCh next
      if nextLine = [] then b2Merge fuel combined d more
      else b2Merge fuel (combined ++ ' ' :: nextLine) (d + lineDepthPlain nextLine) more
    else (combined, next :: more)

/-- b2Scan is the line window scan of the runaway branch. -/
def b2Scan : Nat → Nat → Nat → List (List Char) → List (List Char) →
    List (List Char) × List (List Char)
  | 0, _, _, lines, fixes => (lines, fixes)
  | fuel + 1, i, errorLine, lines, fixes =>
    if i < min lines.length (errorLine + 2) then
      let line := ((lines.get? i).getD [])
      if line ≠ [] ∧ hasTitleCmd line then
        let d := lineDepthPlain line
        if d > 0 then
          let p := b2Merge lines.length line d (lines.drop (i + 1))
          let lines2 := lines.take i ++ p.1 :: p.2
          b2Scan fuel (i + 1) errorLine lines2 (fixes ++ [collapsedAtDesc i])
        else b2Scan fuel (i + 1) errorLine lines fixes
      else b2Scan fuel (i + 1) errorLine lines fixes
    else (lines, fixes)

/-- branchRunaway models the runaway-argument / titlesec fix family. -/
def branchRunaway (latex errorLog : List Char) (fixes : List (List Char)) :
    List Char × List (List Char) :=
  if containsSub errorLog runawayArgPat ∨ containsSub errorLog ttlSpacingPat
      ∨ containsSub errorLog ttlFormatPat ∨ containsSub errorLog ttlRowPat then
    let latex1 := fixTitlesecCommands latex
    let p :=
      match findLineRef errorLog.length errorLog with
      | some errorLine =>
        let lines := splitLinesCh latex1
        let q := b2Scan (errorLine + 2) (errorLine - 10) errorLine lines fixes
        (joinLinesCh q.1, q.2)
      | none => (latex1, fixes)
    if p.1 ≠ latex then (p.1, p.2 ++ [titlesecFmtDesc])
    else (p.1, p.2)
  else (latex, fixes)

/-- blankRemovedDesc is the description of the paragraph-ended branch. -/
def blankRemovedDesc (errorLine : Nat) : List Char :=
  r"Removed blank line near error at line ".data ++ natToDec errorLine

/-- b3Scan is the blank-line removal loop of the paragraph-ended branch. -/
def b3Scan : Nat → Nat → Nat → List (List Char) → List (List Char) →
    List (List Char) × List (List Char)
  | 0, _, _, lines, fixes => (lines, fixes)
  | fuel + 1, i, errorLine, lines, fixes =>
    if i < min lines.length (errorLine + 2) then
      let li := ((lines.get? i).getD [])
      if li ≠ [] ∧ trimCh li = [] ∧ 0 < i ∧ i < lines.length - 1 then
        let prevLine := ((lines.get? (i - 1)).getD [])
        let nextLine := ((lines.get? (i + 1)).getD [])
        if containsSub prevLine ['{'] ∨ containsSub nextLine ['}']
            ∨ containsSub nextLine ['{'] then
          b3Scan fuel i errorLine (lines.eraseIdx i) (fixes ++ [blankRemovedDesc errorLine])
        else b3Scan fuel (i + 1) errorLine lines fixes
      else b3Scan fuel (i + 1) errorLine lines fixes
    else (lines, fixes)

/-- branchParagraphEnded models the paragraph-ended fix family. -/
def branchParagraphEnded (latex errorLog : List Char) (fixes : List (List Char)) :
    List Char × List (List Char) :=
  if containsSub errorLog paragraphEndedPat ∧ ¬ containsSub errorLog ttlAtPat then
    match findLineRef errorLog.length errorLog with
    | some errorLine =>
      let lines := splitLinesCh latex
      let q := b3Scan (lines.length + errorLine + 2) (errorLine - 5) errorLine lines fixes
      (joinLinesCh q.1, q.2)
    | none => (latex, fixes)
  else (latex, fixes)

/-- knownBadCmds are the commands the undefined-control-sequence branch is
willing to strip. -/
def knownBadCmds : List (List Char) :=
  [r"textsc".data, r"MakeUppercase".data, r"MakeLowercase".data]

/-- ucsDesc is the description of the undefined-control-sequence branch. -/
def ucsDesc (badCmd : List Char) : List Char :=
  (r"Replaced undefined ".data ++ ['\\']) ++ badCmd ++ r" with plain text".data

/-- replaceCmdContentGo is the global replace of the command with a brace
group of non-close-brace content by the bare content. -/
def replaceCmdContentGo (cmdPat : List Char) : Nat → List Char → List Char
  | 0, l => l
  | _ + 1, [] => []
  | fuel + 1, c :: rest =>
    if cmdPat.isPrefixOf (c :: rest) then
      let body := (c :: rest).drop cmdPat.length
      let run := body.takeWhile (· != '}')
      let after := body.drop run.length
      if after ≠ [] then run ++ replaceCmdContentGo cmdPat fuel (after.drop 1)
      else c :: replaceCmdContentGo cmdPat fuel rest
    else c :: replaceCmdContentGo cmdPat fuel rest

/-- branchUndefinedCtrlSeq models the undefined-control-sequence fix
family.  Note the description is recorded whenever the diagnostic names a
known command, even when the replace leaves the document unchanged. -/
def branchUndefinedCtrlSeq (latex errorLog : List Char) (fixes : List (List Char)) :
    List Char × List (List Char) :=
  if containsSub errorLog undefinedCtrlSeqPat then
    match ucsMatch errorLog.length errorLog with
    | some badCmd =>
      if badCmd ∈ knownBadCmds then
        let pat := '\\' :: (badCmd ++ ['{'])
        (replaceCmdContentGo pat latex.length latex, fixes ++ [ucsDesc badCmd])
      else (latex, fixes)
    | none => (latex, fixes)
  else (latex, fixes)

/-- rebalancedDesc is the description of the extra-brace branch. -/
def rebalancedDesc : List Char := r"Rebalanced braces".data

/-- branchExtraBrace models the extra-brace / forgotten-math fix family. -/
def branchExtraBrace (latex errorLog : List Char) (fixes : List (List Char)) :
    List Char × List (List Char) :=
  if containsSub errorLog extraBracePat ∨ containsSub errorLog forgottenDollarPat then
    let fixedLatex := fixUnbalancedBraces latex
    if fixedLatex ≠ latex then (fixedLatex, fixes ++ [rebalancedDesc])
    else (latex, fixes)
  else (latex, fixes)

/-- escUnderscoreGo is the global replace of an underscore not preceded by
a backslash and not followed by an opening brace by an escaped
underscore. -/
def escUnderscoreGo : Option Char → List Char → List Char
  | _, [] => []
  | prev, '_' :: rest =>
    if prev = some '\\' then '_' :: escUnderscoreGo (some '_') rest
    else if headIsOpenBrace rest then '_' :: escUnderscoreGo (some '_') rest
    else '\\' :: '_' :: escUnderscoreGo (some '_') rest
  | _, c :: rest => c :: escUnderscoreGo (some c) rest

/-- underscoreDesc is the description of the missing-math branch. -/
def underscoreDesc : List Char := r"Escaped unescaped underscores in text".data

/-- branchMissingDollar models the missing-math fix family. -/
def branchMissingDollar (latex errorLog : List Char) (fixes : List (List Char)) :
    List Char × List (List Char) :=
  if containsSub errorLog missingDollarPat then
    let latex2 := escUnderscoreGo none latex
    if latex2 ≠ latex then (latex2, fixes ++ [underscoreDesc])
    else (latex, fixes)
  else (latex, fixes)

/-- FixResult is the result record of `attemptLatexFix`. -/
structure FixResult where
  fixed : Bool
  latex : List Char
  description : List Char
deriving DecidableEq, Repr

/-- noLogDesc is the description for a missing error log. -/
def noLogDesc : List Char := r"No error log available".data

/-- noFixDesc is the description when no pattern matched. -/
def noFixDesc : List Char := r"No auto-fix available for this error".data

/-- joinSemi joins descriptions with a semicolon and a space. -/
def joinSemi : List (List Char) → List Char
  | [] => []
  | [d] => d
  | d :: ds => d ++ ';' :: ' ' :: joinSemi ds

/-- attemptLatexFix models `attemptLatexFix`: run every matching fix family
in order over the evolving document, and report `fixed` exactly when at
least one description was recorded. -/
def attemptLatexFix (latex errorLog : List Char) : FixResult :=
  if errorLog = [] then ⟨false, latex, noLogDesc⟩
  else
    let s1 := branchMissingBrace latex errorLog []
    let s2 := branchRunaway s1.1 errorLog s1.2
    let s3 := branchParagraphEnded s2.1 errorLog s2.2
    let s4 := branchUndefinedCtrlSeq s3.1 errorLog s3.2
    let s5 := branchExtraBrace s4.1 errorLog s4.2
    let s6 := branchMissingDollar s5.1 errorLog s5.2
    if s6.2 ≠ [] then ⟨true, s6.1, joinSemi s6.2⟩
    else ⟨false, s6.1, noFixDesc⟩

-- ── extractLatexFromResponse (latex-compiler) ─────────────────────────

/-- fenceMarker is the triple-backtick code fence. -/
def fenceMarker : List Char := "```".data

/-- latexTagWord is the optional fence tag. -/
def latexTagWord : List Char := r"latex".data

/-- texTagWord is the optional fence tag. -/
def texTagWord : List Char := r"tex".data

/-- fenceInner models the fenced-block regex: the first fence, an optional
latex/tex tag, greedy whitespace, then the lazy content up to the next
fence.  When no closing fence exists the whole regex fails (an attempt at
a later opening fence cannot succeed either, since any later fence would
already have served as the closing one). -/
def fenceInner (l : List Char) : Option (List Char) :=
  match indexOfCh l fenceMarker with
  | none => none
  | some i =>
    let after := l.drop (i + 3)
    let afterTag :=
      if latexTagWord.isPrefixOf after then after.drop 5
      else if texTagWord.isPrefixOf after then after.drop 3
      else after
    let body := afterTag.dropWhile jsWhitespace
    match indexOfCh body fenceMarker with
    | none => none
    | some j => some (body.take j)

/-- documentclassMarker is the start-of-document marker. -/
def documentclassMarker : List Char := r"\documentclass".data

/-- extractLatexFromResponse models `extractLatexFromResponse`: trim, use
the fenced content when a fenced block exists, and accept only when both
document markers are present. -/
def extractLatexFromResponse (text : List Char) : Option (List Char) :=
  if text = [] then none
  else
    let latex0 := trimCh text
    let latex :=
      match fenceInner latex0 with
      | some inner => trimCh inner
      | none => latex0
    if containsSub latex documentclassMarker ∧ containsSub latex endDocMarker then
      some latex
    else none

/-- candidateText is the claim's candidate text: the content of the first
fenced block when one exists, otherwise the trimmed full text. -/
def candidateText (text : List Char) : List Char :=
  match fenceInner (trimCh text) with
  | some inner => trimCh inner
  | none => trimCh text

-- ── compileLatexToPDF (latex-compiler) ────────────────────────────────

-- Except values are compared structurally in the trace records.
deriving instance DecidableEq for Except

/-- RemoteOutcome abstracts the HTTP response of the remote compilation
backend: success with a PDF buffer, or a failure status with body text. -/
inductive RemoteOutcome (α : Type) where
  | ok (buf : α)
  | fail (status : Nat) (body : List Char)
deriving DecidableEq

/-- AdapterResult records the outcome of one `compileLatexToPDF` call and
which backends were invoked. -/
structure AdapterResult (α : Type) where
  result : Except (List Char) α
  usedRemote : Bool
  usedLocal : Bool
deriving DecidableEq

/-- REMOTE_MAX_CHARS is the size threshold for the remote backend. -/
def REMOTE_MAX_CHARS : Nat := 6000

/-- compileFailMsg is the fatal remote-failure message. -/
def compileFailMsg (status : Nat) (body : List Char) : List Char :=
  r"LaTeX compilation failed: ".data ++ natToDec status ++ r" - ".data ++ body

/-- compileLatexToPDF models the backend-selection logic of
`compileLatexToPDF`: `preferLocal` abstracts the environment variable
check, `remote` the latexonline request and `localCompile` the local
engine invocation.  The remote backend is used when the source fits the
size threshold and local mode is not preferred; a 414 failure falls back
to the local engine, every other failure status is fatal. -/
def compileLatexToPDF {α : Type} (preferLocal : Bool)
    (remote : List Char → RemoteOutcome α)
    (localCompile : List Char → Except (List Char) α)
    (latexSource : List Char) : AdapterResult α :=
  let shouldUseRemote := !preferLocal && decide (latexSource.length ≤ REMOTE_MAX_CHARS)
  if shouldUseRemote then
    match remote latexSource with
    | .ok buf => ⟨.ok buf, true, false⟩
    | .fail status body =>
      if status ≠ 414 then ⟨.error (compileFailMsg status body), true, false⟩
      else ⟨localCompile latexSource, true, true⟩
  else ⟨localCompile latexSource, false, true⟩

-- ── compileLatexWithRetry (latex-compiler) ────────────────────────────

/-- logTailMarker delimits the diagnostic log inside an error message. -/
def logTailMarker : List Char := "LaTeX log tail:\n".data

/-- extractErrorLog models the log-extraction regex of
`compileLatexWithRetry`: the nonempty text after the first log-tail
marker, else the whole message. -/
def extractErrorLog (errMsg : List Char) : List Char :=
  match indexOfCh errMsg logTailMarker with
  | some i =>
    let rest := errMsg.drop (i + logTailMarker.length)
    if rest = [] then errMsg else rest
  | none => errMsg

/-- preSanDesc is the pre-compilation sanitization log entry. -/
def preSanDesc : List Char := r"Pre-compilation sanitization".data

/-- unexpectedRetryMsg is the source's unreachable final error. -/
def unexpectedRetryMsg : List Char := r"Unexpected error in compileLatexWithRetry".data

/-- RetryTrace records the outcome of `compileLatexWithRetry` together
with the final document, the fix log and the number of compiler
invocations. -/
structure RetryTrace (α : Type) where
  result : Except (List Char) α
  finalLatex : List Char
  fixesApplied : List (List Char)
  invocations : Nat
deriving DecidableEq

/-- retryGo is the attempt loop of `compileLatexWithRetry`, instrumented
with the number of compiler invocations; the fuel counts the remaining
loop iterations, so exhausting it is the source's unreachable final
error. -/
def retryGo {α : Type} (compile : List Char → Except (List Char) α) (maxRetries : Nat) :
    Nat → Nat → List Char → List (List Char) → Nat → RetryTrace α
  | 0, _, latex, fixes, invs => ⟨.error unexpectedRetryMsg, latex, fixes, invs⟩
  | fuel + 1, attempt, latex, fixes, invs =>
    match compile latex with
    | .ok pdf => ⟨.ok pdf, latex, fixes, invs + 1⟩
    | .error err =>
      if attempt > maxRetries then ⟨.error err, latex, fixes, invs + 1⟩
      else
        let errorLog := extractErrorLog err
        let fix := attemptLatexFix latex errorLog
        if fix.fixed then
          retryGo compile maxRetries fuel (attempt + 1) fix.latex
            (fixes ++ [fix.description]) (invs + 1)
        else ⟨.error err, latex, fixes, invs + 1⟩

/-- compileLatexWithRetry models `compileLatexWithRetry` with the compiler
adapter abstracted as a parameter: sanitize once (logging a fix entry when
sanitization changed the document), then compile with error-driven fixes
up to the retry bound. -/
def compileLatexWithRetry {α : Type} (compile : List Char → Except (List Char) α)
    (latexSource : List Char) (maxRetries : Nat) : RetryTrace α :=
  let latex := sanitizeLatexCh latexSource
  let fixes : List (List Char) := if latex = latexSource then [] else [preSanDesc]
  retryGo compile maxRetries (maxRetries + 1) 1 latex fixes 0

-- ── compileWithTwoPageGuard (resume route) ────────────────────────────

/-- pageErrMsg is the page-budget-exceeded error of the two-page guard. -/
def pageErrMsg (maxAttempts : Nat) : List Char :=
  r"PDF still exceeds 2 pages after ".data ++ natToDec maxAttempts ++ r" attempts.".data

/-- guardUnexpectedMsg is the source's unreachable after-loop error. -/
def guardUnexpectedMsg : List Char := r"Unexpected error while enforcing 2-page limit.".data

/-- GuardTrace records the outcome of `compileWithTwoPageGuard` together
with the number of compile passes and refinement rounds. -/
structure GuardTrace (α : Type) where
  result : Except (List Char) (α × List Char × Nat)
  compileCalls : Nat
  refineCalls : Nat
deriving DecidableEq

/-- guardGo is the attempt loop of `compileWithTwoPageGuard` in the resume
route, instrumented with compile and refinement counts; compilation (the
retry pipeline) and the generative refinement collaborator are abstracted
as parameters.  A compile failure propagates; a page count within budget
returns; on the final attempt the page-budget error is raised; otherwise
one refinement round runs and the loop recompiles. -/
def guardGo {α : Type}
    (compileRetry : List Char → Except (List Char) (α × List Char × List (List Char)))
    (pageCount : α → Nat) (refine : List Char → List Char) (maxAttempts : Nat) :
    Nat → Nat → List Char → Nat → Nat → GuardTrace α
  | 0, _, _, cc, rc => ⟨.error guardUnexpectedMsg, cc, rc⟩
  | fuel + 1, attempt, latex, cc, rc =>
    match compileRetry latex with
    | .error e => ⟨.error e, cc + 1, rc⟩
    | .ok (pdf, newLatex, _) =>
      let pc := pageCount pdf
      if pc ≤ 2 then ⟨.ok (pdf, newLatex, pc), cc + 1, rc⟩
      else if attempt = maxAttempts then ⟨.error (pageErrMsg maxAttempts), cc + 1, rc⟩
      else guardGo compileRetry pageCount refine maxAttempts fuel (attempt + 1)
        (refine newLatex) (cc + 1) (rc + 1)

/-- compileWithTwoPageGuard models `compileWithTwoPageGuard`: at most two
compile-and-measure passes with one generative compression round between
them. -/
def compileWithTwoPageGuard {α : Type}
    (compileRetry : List Char → Except (List Char) (α × List Char × List (List Char)))
    (pageCount : α → Nat) (refine : List Char → List Char)
    (initialLatex : List Char) : GuardTrace α :=
  guardGo compileRetry pageCount refine 2 2 1 initialLatex 0 0

-- ── Claim-side checkers and example inputs ────────────────────────────

/-- hashOkGo checks that every hash character of a line is either preceded
by a backslash or followed by a digit ("no unescaped literal hash
remains"); `prev` tracks the preceding character. -/
def hashOkGo : Option Char → List Char → Bool
  | _, [] => true
  | prev, c :: rest =>
    if c = '#' then
      (decide (prev = some '\\') || headIsDigit rest) && hashOkGo (some '#') rest
    else hashOkGo (some c) rest

/-- hashOk checks a whole line. -/
def hashOk (line : List Char) : Bool := hashOkGo none line

/-- hasUnescapedGo tests whether the target character occurs somewhere not
immediately preceded by a backslash. -/
def hasUnescapedGo (t : Char) : Option Char → List Char → Bool
  | _, [] => false
  | prev, c :: rest =>
    (decide (c = t) && !decide (prev = some '\\')) || hasUnescapedGo t (some c) rest

/-- hasUnescaped tests a whole string. -/
def hasUnescaped (t : Char) (l : List Char) : Bool := hasUnescapedGo t none l

/-- exOverClosed is a document with one more closing than opening brace. -/
def exOverClosed : List Char := ['a', '}']

/-- exUnderClosedDoc is a document with one unmatched opening brace before
its end-of-document marker. -/
def exUnderClosedDoc : List Char := '{' :: endDocMarker

/-- exMarkdownBold is a document consisting of one markdown bold fragment
whose content is a single space. -/
def exMarkdownBold : List Char := ['*', '*', ' ', '*', '*']

/-- exUnderscoreDoc is a body line with an unescaped underscore. -/
def exUnderscoreDoc : List Char := ['a', '_', 'b']

/-- exBackslashBrace is an under-closed document ending in a backslash. -/
def exBackslashBrace : List Char := ['{', '\\']

/-- exPlainOpen is an under-closed document of plain characters. -/
def exPlainOpen : List Char := ['{', 'a']

/-- ucsLog is a diagnostic log naming an undefined control sequence whose
replacement pattern need not occur in the document. -/
def ucsLog : List Char := "main.tex:3: Undefined control sequence \\textsc".data

/-- exDocPlain is a small body without the named command. -/
def exDocPlain : List Char := ['h', 'e', 'l', 'l', 'o']

/-- exC7Pre is the prefix of the under-closed witness document. -/
def exC7Pre : List Char := ['{', 'x']

/-- exC7Suf is the suffix of the under-closed witness document. -/
def exC7Suf : List Char := ['q']


-- ── Escape-successor invariants (claim C4) ───────────────────────────

/-- bsNext q holds when every backslash of the list is immediately
followed by a character satisfying q (in particular no backslash is
last).  Instantiated at the hash-only successor set this describes the
output of the first sanitizer pass, whose only backslashes are the ones
it inserts before hash characters. -/
def bsNext (q : Char → Bool) : List Char → Bool
  | [] => true
  | c :: rest =>
    if c = '\\' then
      match rest with
      | d :: rest2 => if q d then bsNext q rest2 else false
      | [] => false
    else bsNext q rest

/-- bsNextW is the weak form of `bsNext`: a trailing backslash is
allowed.  Unlike `bsNext` it is preserved by `List.take`, which is what
the 20-character look-behind window of the brace-removal loop needs. -/
def bsNextW (q : Char → Bool) : List Char → Bool
  | [] => true
  | c :: rest =>
    if c = '\\' then
      match rest with
      | d :: rest2 => if q d then bsNextW q rest2 else false
      | [] => true
    else bsNextW q rest

/-- qHash is the successor set of the document before the markdown pass:
every backslash is followed by a hash. -/
def qHash (d : Char) : Bool := d = '#'

/-- qHashT is the successor set after the markdown pass may have inserted
bold/italic/teletype commands: every backslash is followed by a hash or a
letter t. -/
def qHashT (d : Char) : Bool := d = '#' || d = 't'

/-- exC4Mixed is an under-closed document containing a hash and markdown
bold markers but no backslash. -/
def exC4Mixed : List Char := ['a', '#', '{', '*', '*', 'b', '*', '*']

-- ── Helper lemmas: substring indices ──────────────────────────────────

/-- Membership in `subIndexes` unfolds to a bound and a prefix fact. -/
theorem mem_subIndexes {l pat : List Char} {k : Nat} :
    k ∈ subIndexes l pat ↔ k < l.length + 1 ∧ pat.isPrefixOf (l.drop k) = true := by
  simp [subIndexes, List.mem_filter, List.mem_range]

/-- A last-occurrence index is an occurrence. -/
theorem lastIndexOfCh_mem {l pat : List Char} {k : Nat}
    (h : lastIndexOfCh l pat = some k) : k ∈ subIndexes l pat := by
  unfold lastIndexOfCh at h
  rw [List.getLast?_eq_getElem?] at h
  exact List.getElem?_mem h

/-- The pattern occurs at a last-occurrence index. -/
theorem lastIndexOfCh_isPrefix {l pat : List Char} {k : Nat}
    (h : lastIndexOfCh l pat = some k) : pat.isPrefixOf (l.drop k) = true :=
  (mem_subIndexes.mp (lastIndexOfCh_mem h)).2

/-- When a character of the pattern does not occur in the text, there is no
occurrence index. -/
theorem subIndexes_eq_nil {l pat : List Char} {c : Char}
    (hc : c ∈ pat) (hl : c ∉ l) : subIndexes l pat = [] := by
  rw [List.eq_nil_iff_forall_not_mem]
  intro k hk
  obtain ⟨-, hp⟩ := mem_subIndexes.mp hk
  have hpre : pat <+: l.drop k := by
    rwa [← List.isPrefixOf_iff_prefix]
  exact hl (List.drop_subset k l (hpre.subset hc))

/-- When a character of the pattern does not occur in the text, the last
occurrence search fails. -/
theorem lastIndexOfCh_eq_none {l pat : List Char} {c : Char}
    (hc : c ∈ pat) (hl : c ∉ l) : lastIndexOfCh l pat = none := by
  unfold lastIndexOfCh
  rw [subIndexes_eq_nil hc hl]
  rfl

/-- When a character of the pattern does not occur in the text, the first
occurrence search fails. -/
theorem indexOfCh_eq_none {l pat : List Char} {c : Char}
    (hc : c ∈ pat) (hl : c ∉ l) : indexOfCh l pat = none := by
  unfold indexOfCh
  rw [subIndexes_eq_nil hc hl]
  rfl

/-- When a character of the pattern does not occur in the text, the
containment test fails. -/
theorem containsSub_eq_false {l pat : List Char} {c : Char}
    (hc : c ∈ pat) (hl : c ∉ l) : containsSub l pat = false := by
  unfold containsSub
  rw [indexOfCh_eq_none hc hl]
  rfl

/-- A character that occurs in the text yields a last occurrence. -/
theorem lastIndexOfCh_single_isSome {l : List Char} {c : Char} (h : c ∈ l) :
    ∃ k, lastIndexOfCh l [c] = some k := by
  obtain ⟨i, hi, hget⟩ := List.mem_iff_getElem.mp h
  have hidx : i ∈ subIndexes l [c] := by
    rw [mem_subIndexes]
    refine ⟨by omega, ?_⟩
    rw [List.drop_eq_getElem_cons hi, hget]
    simp [List.isPrefixOf]
  have hne : subIndexes l [c] ≠ [] := by
    intro hnil
    rw [hnil] at hidx
    exact (List.not_mem_nil i) hidx
  unfold lastIndexOfCh
  obtain ⟨a, ha⟩ := Option.isSome_iff_exists.mp (List.getLast?_isSome.mpr hne)
  exact ⟨a, ha⟩

-- ── Helper lemmas: line splitting ─────────────────────────────────────

/-- splitLinesCh never returns the empty list. -/
theorem splitLinesCh_ne_nil (l : List Char) : splitLinesCh l ≠ [] := by
  cases l with
  | nil => simp [splitLinesCh]
  | cons c rest =>
    simp only [splitLinesCh]
    split <;> simp

/-- Joining the split lines restores the input. -/
theorem joinLinesCh_splitLinesCh (l : List Char) : joinLinesCh (splitLinesCh l) = l := by
  induction l with
  | nil => rfl
  | cons c rest ih =>
    simp only [splitLinesCh]
    by_cases h : c = '\n'
    · subst h
      simp only [if_pos rfl, joinLinesCh]
      rw [List.isEmpty_eq_false.mpr (splitLinesCh_ne_nil rest)]
      simp [ih]
    · rw [if_neg h]
      obtain ⟨line, more, hsplit⟩ : ∃ line more, splitLinesCh rest = line :: more := by
        cases hs : splitLinesCh rest with
        | nil => exact absurd hs (splitLinesCh_ne_nil rest)
        | cons a b => exact ⟨a, b, rfl⟩
      rw [hsplit] at ih ⊢
      simp only [List.headD_cons, List.tail_cons]
      by_cases he : more.isEmpty
      · have h1 : joinLinesCh (line :: more) = line := by
          simp [joinLinesCh, he]
        have h2 : joinLinesCh ((c :: line) :: more) = c :: line := by
          simp [joinLinesCh, he]
        rw [h1] at ih
        rw [h2, ih]
      · have h1 : joinLinesCh (line :: more) = line ++ '\n' :: joinLinesCh more := by
          simp [joinLinesCh, he]
        have h2 : joinLinesCh ((c :: line) :: more) =
            (c :: line) ++ '\n' :: joinLinesCh more := by
          simp [joinLinesCh, he]
        rw [h1] at ih
        rw [h2, List.cons_append, ih]

-- ── Helper lemmas: counting ───────────────────────────────────────────

/-- Counting a non-newline character distributes over joining lines. -/
theorem count_joinLinesCh {c : Char} (hc : c ≠ '\n') :
    ∀ ls : List (List Char), (joinLinesCh ls).count c = (ls.map (List.count c)).sum := by
  intro ls
  induction ls with
  | nil => simp [joinLinesCh]
  | cons l ls ih =>
    by_cases he : ls.isEmpty
    · have : ls = [] := List.isEmpty_iff.mp he
      subst this
      simp [joinLinesCh]
    · have hj : joinLinesCh (l :: ls) = l ++ '\n' :: joinLinesCh ls := by
        simp [joinLinesCh, he]
      rw [hj]
      simp [List.count_append, List.count_cons, ih, hc]

/-- Counting a non-newline character sums over the split lines. -/
theorem count_splitLinesCh {c : Char} (hc : c ≠ '\n') (l : List Char) :
    ((splitLinesCh l).map (List.count c)).sum = l.count c := by
  conv_rhs => rw [← joinLinesCh_splitLinesCh l]
  rw [count_joinLinesCh hc]

/-- Split lines contain only characters of the input. -/
theorem mem_of_mem_splitLinesCh : ∀ {l line : List Char} {c : Char},
    line ∈ splitLinesCh l → c ∈ line → c ∈ l := by
  intro l
  induction l with
  | nil =>
    intro line c hl hc
    simp [splitLinesCh] at hl
    subst hl
    simp at hc
  | cons a rest ih =>
    intro line c hl hc
    simp only [splitLinesCh] at hl
    by_cases h : a = '\n'
    · rw [if_pos h] at hl
      rcases List.mem_cons.mp hl with hl | hl
      · subst hl; simp at hc
      · exact List.mem_cons_of_mem a (ih hl hc)
    · rw [if_neg h] at hl
      obtain ⟨h0, t0, hs⟩ : ∃ h0 t0, splitLinesCh rest = h0 :: t0 := by
        cases hs : splitLinesCh rest with
        | nil => exact absurd hs (splitLinesCh_ne_nil rest)
        | cons x y => exact ⟨x, y, rfl⟩
      rw [hs] at hl
      simp only [List.headD_cons, List.tail_cons] at hl
      rcases List.mem_cons.mp hl with hl | hl
      · subst hl
        rcases List.mem_cons.mp hc with hc | hc
        · subst hc; exact List.mem_cons_self c rest
        · have : c ∈ rest := ih (by rw [hs]; exact List.mem_cons_self h0 t0) hc
          exact List.mem_cons_of_mem a this
      · have : c ∈ rest := ih (by rw [hs]; exact List.mem_cons_of_mem h0 hl) hc
        exact List.mem_cons_of_mem a this

/-- The hash-escaping scan preserves the count of every non-backslash
character. -/
theorem count_escapeHashGo {c : Char} (hc : c ≠ '\\') :
    ∀ (l : List Char) (prev : Option Char),
      (escapeHashGo prev l).count c = l.count c := by
  intro l
  induction l with
  | nil => intro prev; rfl
  | cons a rest ih =>
    intro prev
    by_cases ha : a = '#'
    · subst ha
      simp only [escapeHashGo, if_pos rfl]
      by_cases hp : prev = some '\\'
      · rw [if_pos hp]
        simp [List.count_cons, ih]
      · rw [if_neg hp]
        by_cases hd : headIsDigit rest
        · rw [if_pos hd]
          simp [List.count_cons, ih]
        · rw [if_neg hd]
          simp [List.count_cons, ih, hc]
    · simp only [escapeHashGo, if_neg ha]
      simp [List.count_cons, ih]

/-- The per-line escape preserves the count of every non-backslash
character. -/
theorem count_perLineEsc {c : Char} (hc : c ≠ '\\') (line : List Char) :
    (perLineEsc line).count c = line.count c := by
  unfold perLineEsc
  split
  · rfl
  · exact count_escapeHashGo hc line none

/-- The first sanitizer pass preserves the count of every character other
than backslash and newline. -/
theorem count_fixUnescapedSpecialChars {c : Char} (hc : c ≠ '\\') (hn : c ≠ '\n')
    (l : List Char) :
    (fixUnescapedSpecialChars l).count c = l.count c := by
  unfold fixUnescapedSpecialChars
  rw [count_joinLinesCh hn, List.map_map, ← count_splitLinesCh hn l]
  congr 1
  apply List.map_congr_left
  intro line _
  exact count_perLineEsc hc line

-- ── Helper lemmas: hash escaping leaves no unescaped hash ─────────────

/-- A leading digit survives the hash-escaping scan. -/
theorem headIsDigit_escapeHashGo {rest : List Char} (h : headIsDigit rest = true)
    (p : Option Char) : headIsDigit (escapeHashGo p rest) = true := by
  cases rest with
  | nil => simp [headIsDigit] at h
  | cons d r =>
    have hd : d.isDigit = true := h
    have hne : d ≠ '#' := by
      intro he
      subst he
      exact absurd hd (by decide)
    simp only [escapeHashGo, if_neg hne]
    exact hd


/-- The hash-escaping scan keeps an already-escaped hash. -/
theorem escapeHashGo_hash_escaped {prev : Option Char} (hp : prev = some '\\')
    (rest : List Char) :
    escapeHashGo prev ('#' :: rest) = '#' :: escapeHashGo (some '#') rest := by
  simp [escapeHashGo, hp]

/-- The hash-escaping scan keeps a hash followed by a digit. -/
theorem escapeHashGo_hash_digit {prev : Option Char} (hp : prev ≠ some '\\')
    {rest : List Char} (hd : headIsDigit rest = true) :
    escapeHashGo prev ('#' :: rest) = '#' :: escapeHashGo (some '#') rest := by
  simp [escapeHashGo, hp, hd]

/-- The hash-escaping scan escapes every other hash. -/
theorem escapeHashGo_hash_esc {prev : Option Char} (hp : prev ≠ some '\\')
    {rest : List Char} (hd : headIsDigit rest = false) :
    escapeHashGo prev ('#' :: rest) = '\\' :: '#' :: escapeHashGo (some '#') rest := by
  simp [escapeHashGo, hp, hd]

/-- The hash-escaping scan copies non-hash characters. -/
theorem escapeHashGo_other {c : Char} (h : c ≠ '#') (prev : Option Char)
    (rest : List Char) :
    escapeHashGo prev (c :: rest) = c :: escapeHashGo (some c) rest := by
  simp [escapeHashGo, h]

/-- The hash checker at a leading hash unfolds to the escaped-or-numbered
test. -/
theorem hashOkGo_cons_hash (prev : Option Char) (out : List Char) :
    hashOkGo prev ('#' :: out) =
      ((decide (prev = some '\\') || headIsDigit out) && hashOkGo (some '#') out) := by
  simp [hashOkGo]

/-- The hash checker skips a leading non-hash character. -/
theorem hashOkGo_cons_other {c : Char} (h : c ≠ '#') (prev : Option Char)
    (out : List Char) : hashOkGo prev (c :: out) = hashOkGo (some c) out := by
  simp [hashOkGo, h]

/-- After the hash-escaping scan every hash is escaped or numbered. -/
theorem hashOk_escapeHashGo : ∀ (l : List Char) (prev : Option Char),
    hashOkGo prev (escapeHashGo prev l) = true := by
  intro l
  induction l with
  | nil => intro prev; rfl
  | cons a rest ih =>
    intro prev
    by_cases ha : a = '#'
    · subst ha
      by_cases hp : prev = some '\\'
      · rw [escapeHashGo_hash_escaped hp, hashOkGo_cons_hash]
        simp [hp, ih (some '#')]
      · by_cases hd : headIsDigit rest
        · rw [escapeHashGo_hash_digit hp hd, hashOkGo_cons_hash]
          simp [headIsDigit_escapeHashGo hd (some '#'), ih (some '#')]
        · rw [escapeHashGo_hash_esc hp (eq_false_of_ne_true hd),
            hashOkGo_cons_other (by decide), hashOkGo_cons_hash]
          simp [ih (some '#')]
    · rw [escapeHashGo_other ha, hashOkGo_cons_other ha]
      exact ih (some a)

-- ── Helper lemmas: the brace-removal loop ─────────────────────────────

/-- One step of the removal loop with a known last occurrence. -/
theorem removeExcess_succ {l : List Char} {k : Nat} (n : Nat)
    (hk : lastIndexOfCh l ['}'] = some k) :
    removeExcess (n + 1) l =
      (if endsWithOpenEnd ((l.take k).drop (k - 20)) then l
       else removeExcess n (l.take k ++ l.drop (k + 1))) := by
  simp only [removeExcess]
  rw [hk]

/-- The removal loop only deletes characters: its result is a sublist. -/
theorem removeExcess_sublist : ∀ (n : Nat) (l : List Char),
    (removeExcess n l).Sublist l := by
  intro n
  induction n with
  | zero => intro l; exact List.Sublist.refl l
  | succ n ih =>
    intro l
    cases hk : lastIndexOfCh l ['}'] with
    | none =>
      simp only [removeExcess]
      rw [hk]
    | some k =>
      rw [removeExcess_succ n hk]
      split
      · exact List.Sublist.refl l
      · refine List.Sublist.trans (ih _) ?_
        conv_rhs => rw [← List.take_append_drop k l]
        exact List.Sublist.append_left
          (List.drop_sublist_drop_left l (by omega)) (l.take k)

/-- A last occurrence of a single character reads back that character. -/
theorem lastIndexOfCh_single_getElem {l : List Char} {c : Char} {k : Nat}
    (h : lastIndexOfCh l [c] = some k) : ∃ hk : k < l.length, l[k] = c := by
  have hp := lastIndexOfCh_isPrefix h
  have hpre : [c] <+: l.drop k := List.isPrefixOf_iff_prefix.mp hp
  obtain ⟨t, ht⟩ := hpre
  have hlen : k < l.length := by
    by_contra hge
    push_neg at hge
    rw [List.drop_eq_nil_of_le hge] at ht
    simp at ht
  refine ⟨hlen, ?_⟩
  rw [List.drop_eq_getElem_cons hlen] at ht
  simp only [List.cons_append, List.nil_append, List.cons.injEq] at ht
  exact ht.1.symm

/-- Each removal step deletes exactly one closing brace: counts of all
other characters are preserved. -/
theorem removeExcess_count {c : Char} (hc : c ≠ '}') :
    ∀ (n : Nat) (l : List Char), (removeExcess n l).count c = l.count c := by
  intro n
  induction n with
  | zero => intro l; rfl
  | succ n ih =>
    intro l
    cases hk : lastIndexOfCh l ['}'] with
    | none =>
      simp only [removeExcess]
      rw [hk]
    | some k =>
      rw [removeExcess_succ n hk]
      split
      · rfl
      · rw [ih]
        obtain ⟨hlt, hget⟩ := lastIndexOfCh_single_getElem hk
        conv_rhs => rw [← List.take_append_drop k l]
        rw [List.drop_eq_getElem_cons hlt, hget]
        simp [List.count_append, List.count_cons, hc]

-- ── Claim C1 ──────────────────────────────────────────────────────────

/-- Claim C1, counterexample: on the over-closed input "a}" the
brace-balancing pass deletes the excess closing brace instead of escaping
it in place, so the output is one character shorter — not one backslash
longer as the claim states. -/
theorem c1_counterexample :
    fixUnbalancedBraces exOverClosed = ['a'] ∧
    (fixUnbalancedBraces exOverClosed).length ≠ exOverClosed.length + 1 := by
  decide

/-- Claim C1, amended: for every input whose scanned brace depth is
negative, the brace-balancing pass resolves the excess by deleting closing
braces: the output is a subsequence of the input (no character, in
particular no backslash, is inserted) and the count of every character
other than the closing brace is unchanged. -/
theorem c1_amended_removal (l : List Char) (h : braceDepth l < 0) :
    (fixUnbalancedBraces l).Sublist l ∧
    ∀ c : Char, c ≠ '}' → (fixUnbalancedBraces l).count c = l.count c := by
  have hpos : ¬ braceDepth l > 0 := by omega
  simp only [fixUnbalancedBraces, if_neg hpos, if_pos h]
  cases hk : lastIndexOfCh l endDocMarker with
  | none =>
    simp only [hk]
    constructor
    · simpa using removeExcess_sublist ((-braceDepth l).toNat) l
    · intro c hc
      simpa using removeExcess_count hc ((-braceDepth l).toNat) l
  | some idx =>
    simp only [hk]
    constructor
    · have h1 := removeExcess_sublist ((-braceDepth l).toNat) (l.take idx)
      have h2 := List.Sublist.append_right h1 (l.drop idx)
      rwa [List.take_append_drop idx l] at h2
    · intro c hc
      rw [List.count_append, removeExcess_count hc, ← List.count_append,
        List.take_append_drop idx l]

/-- Claim C1, amended witness at the over-closed example. -/
theorem c1_amended_removal_witness :
    braceDepth exOverClosed < 0 ∧
    ((fixUnbalancedBraces exOverClosed).Sublist exOverClosed ∧
     ∀ c : Char, c ≠ '}' →
       (fixUnbalancedBraces exOverClosed).count c = exOverClosed.count c) :=
  ⟨by decide, c1_amended_removal exOverClosed (by decide)⟩

-- ── Claim C3 ──────────────────────────────────────────────────────────

/-- Claim C3, counterexample: the first sanitizer pass does not escape
underscores (nor dollars or percents): on the body line "a_b" the output
equals the input and still contains an unescaped underscore, contradicting
the claim that every literal unescaped underscore in the body is
escaped. -/
theorem c3_counterexample :
    fixUnescapedSpecialChars exUnderscoreDoc = exUnderscoreDoc ∧
    hasUnescaped '_' (fixUnescapedSpecialChars exUnderscoreDoc) = true := by
  decide

/-- Claim C3, amended: the first sanitizer pass escapes only hash
characters — the counts of '$', '_' and '%' are unchanged on every input —
and on every line that is not skipped (comment, definition and preamble
lines are skipped) the per-line escape leaves every hash either preceded
by a backslash or followed by a digit. -/
theorem c3_amended_hash_only (l line : List Char) :
    ((fixUnescapedSpecialChars l).count '$' = l.count '$' ∧
     (fixUnescapedSpecialChars l).count '_' = l.count '_' ∧
     (fixUnescapedSpecialChars l).count '%' = l.count '%') ∧
    (skippedLine line = false → hashOk (perLineEsc line) = true) := by
  constructor
  · exact ⟨count_fixUnescapedSpecialChars (by decide) (by decide) l,
      count_fixUnescapedSpecialChars (by decide) (by decide) l,
      count_fixUnescapedSpecialChars (by decide) (by decide) l⟩
  · intro hsk
    unfold perLineEsc
    rw [if_neg (by simp [hsk])]
    exact hashOk_escapeHashGo line none

/-- Claim C3, amended witness at a concrete body line. -/
theorem c3_amended_hash_only_witness :
    skippedLine exUnderscoreDoc = false ∧
    ((fixUnescapedSpecialChars exUnderscoreDoc).count '$' = exUnderscoreDoc.count '$' ∧
     (fixUnescapedSpecialChars exUnderscoreDoc).count '_' = exUnderscoreDoc.count '_' ∧
     (fixUnescapedSpecialChars exUnderscoreDoc).count '%' = exUnderscoreDoc.count '%') ∧
    hashOk (perLineEsc exUnderscoreDoc) = true :=
  ⟨by decide, (c3_amended_hash_only exUnderscoreDoc exUnderscoreDoc).1,
   (c3_amended_hash_only exUnderscoreDoc exUnderscoreDoc).2 (by decide)⟩

-- ── Helper lemmas: passes are inert on restricted inputs ─────────────

theorem isPrefixOf_cons_eq_false {p : Char} {ps l : List Char}
    (h : p ∉ l) : (p :: ps).isPrefixOf l = false := by
  cases l with
  | nil => rfl
  | cons c rest =>
    have hne : p ≠ c := fun he => h (he ▸ List.mem_cons_self c rest)
    simp [List.isPrefixOf, hne]

theorem isPrefixOf_eq_false_of_head {pat l : List Char} {p : Char}
    (hhead : pat.head? = some p) (h : p ∉ l) : pat.isPrefixOf l = false := by
  cases pat with
  | nil => simp at hhead
  | cons a as =>
    simp only [List.head?_cons, Option.some.injEq] at hhead
    subst hhead
    exact isPrefixOf_cons_eq_false h

theorem headIs_eq_false_of_not_mem {t : Char} {l : List Char}
    (h : t ∉ l) (k : Nat) : headIs t (l.drop k) = false := by
  cases hd : l.drop k with
  | nil => rfl
  | cons c rest =>
    have hc : c ∈ l := by
      refine List.drop_subset k l ?_
      rw [hd]
      exact List.mem_cons_self c rest
    have hne : c ≠ t := fun he => h (he ▸ hc)
    simp [headIs, hne]

theorem escapeHashGo_id : ∀ (l : List Char), '#' ∉ l → ∀ prev,
    escapeHashGo prev l = l := by
  intro l
  induction l with
  | nil => intro _ _; rfl
  | cons a rest ih =>
    intro h prev
    have ha : a ≠ '#' := fun he => h (he ▸ List.mem_cons_self a rest)
    rw [escapeHashGo_other ha, ih (fun hm => h (List.mem_cons_of_mem a hm)) (some a)]

theorem fixUnescapedSpecialChars_id {l : List Char} (h : '#' ∉ l) :
    fixUnescapedSpecialChars l = l := by
  unfold fixUnescapedSpecialChars
  have hmap : ∀ line ∈ splitLinesCh l, perLineEsc line = line := by
    intro line hline
    unfold perLineEsc
    split
    · rfl
    · exact escapeHashGo_id line (fun hm => h (mem_of_mem_splitLinesCh hline hm)) none
  rw [List.map_congr_left hmap, List.map_id', joinLinesCh_splitLinesCh]

theorem braceDepthGo_cons (c : Char) (rest : List Char) (v : Bool) (d : Int) :
    braceDepthGo (c :: rest) v d =
      (if c = '\\' ∧ rest ≠ [] then
        (match rest with
         | _ :: rest2 => braceDepthGo rest2 v d
         | [] => d)
       else if beginVerbatimMarker.isPrefixOf (c :: rest) then braceDepthGo rest true d
       else if endVerbatimMarker.isPrefixOf (c :: rest) then braceDepthGo rest false d
       else if v then braceDepthGo rest v d
       else if c = '{' then braceDepthGo rest v (d + 1)
       else if c = '}' then braceDepthGo rest v (d - 1)
       else braceDepthGo rest v d) := by
  conv_lhs => rw [braceDepthGo.eq_def]

theorem nonEscapedDepthGo_cons (c : Char) (rest : List Char) (d : Int) :
    nonEscapedDepthGo (c :: rest) d =
      (if c = '\\' ∧ rest ≠ [] then
        (match rest with
         | _ :: rest2 => nonEscapedDepthGo rest2 d
         | [] => d)
       else if c = '{' then nonEscapedDepthGo rest (d + 1)
       else if c = '}' then nonEscapedDepthGo rest (d - 1)
       else nonEscapedDepthGo rest d) := by
  conv_lhs => rw [nonEscapedDepthGo.eq_def]

theorem braceDepthGo_plain : ∀ (l : List Char), '\\' ∉ l → ∀ d : Int,
    braceDepthGo l false d = d + l.count '{' - l.count '}' := by
  intro l
  induction l with
  | nil =>
    intro _ d
    have hz : braceDepthGo [] false d = d := rfl
    rw [hz]
    simp
  | cons c rest ih =>
    intro h d
    have hc : c ≠ '\\' := fun he => h (he ▸ List.mem_cons_self c rest)
    have hrest : '\\' ∉ rest := fun hm => h (List.mem_cons_of_mem c hm)
    have hbv : beginVerbatimMarker.isPrefixOf (c :: rest) = false :=
      isPrefixOf_eq_false_of_head (by decide) h
    have hev : endVerbatimMarker.isPrefixOf (c :: rest) = false :=
      isPrefixOf_eq_false_of_head (by decide) h
    rw [braceDepthGo_cons, if_neg (by simp [hc] : ¬(c = '\\' ∧ rest ≠ [])),
      if_neg (by simp [hbv] : ¬(beginVerbatimMarker.isPrefixOf (c :: rest) = true)),
      if_neg (by simp [hev] : ¬(endVerbatimMarker.isPrefixOf (c :: rest) = true)),
      if_neg (by simp : ¬(false = true))]
    by_cases h1 : c = '{'
    · subst h1
      rw [if_pos rfl, ih hrest]
      simp [List.count_cons]
      omega
    · rw [if_neg h1]
      by_cases h2 : c = '}'
      · subst h2
        rw [if_pos rfl, ih hrest]
        simp [List.count_cons]
        omega
      · rw [if_neg h2, ih hrest]
        simp [List.count_cons, h1, h2]

theorem nonEscapedDepthGo_plain : ∀ (l : List Char), '\\' ∉ l → ∀ d : Int,
    nonEscapedDepthGo l d = d + l.count '{' - l.count '}' := by
  intro l
  induction l with
  | nil =>
    intro _ d
    have hz : nonEscapedDepthGo [] d = d := rfl
    rw [hz]
    simp
  | cons c rest ih =>
    intro h d
    have hc : c ≠ '\\' := fun he => h (he ▸ List.mem_cons_self c rest)
    have hrest : '\\' ∉ rest := fun hm => h (List.mem_cons_of_mem c hm)
    rw [nonEscapedDepthGo_cons, if_neg (by simp [hc] : ¬(c = '\\' ∧ rest ≠ []))]
    by_cases h1 : c = '{'
    · subst h1
      rw [if_pos rfl, ih hrest]
      simp [List.count_cons]
      omega
    · rw [if_neg h1]
      by_cases h2 : c = '}'
      · subst h2
        rw [if_pos rfl, ih hrest]
        simp [List.count_cons]
        omega
      · rw [if_neg h2, ih hrest]
        simp [List.count_cons, h1, h2]

theorem removeExcess_balanced : ∀ (n : Nat) (l : List Char), '\\' ∉ l →
    l.count '}' = l.count '{' + n →
    (removeExcess n l).count '}' = (removeExcess n l).count '{' ∧
    (removeExcess n l).count '{' = l.count '{' := by
  intro n
  induction n with
  | zero =>
    intro l _ hcount
    exact ⟨by simpa using hcount, rfl⟩
  | succ n ih =>
    intro l hbs hcount
    have hmem : '}' ∈ l := by
      have hpos : 0 < l.count '}' := by omega
      exact List.count_pos_iff.mp hpos
    obtain ⟨k, hk⟩ := lastIndexOfCh_single_isSome hmem
    rw [removeExcess_succ n hk]
    have hnb : '\\' ∉ (l.take k).drop (k - 20) := by
      intro hm
      exact hbs (List.take_subset k l (List.drop_subset _ _ hm))
    have hbefore : endsWithOpenEnd ((l.take k).drop (k - 20)) = false := by
      unfold endsWithOpenEnd
      rw [lastIndexOfCh_eq_none (by decide : '\\' ∈ endOpenMarker) hnb]
    rw [if_neg (by simp [hbefore])]
    obtain ⟨hlt, hget⟩ := lastIndexOfCh_single_getElem hk
    have hsplit : l = l.take k ++ '}' :: l.drop (k + 1) := by
      conv_lhs => rw [← List.take_append_drop k l]
      rw [List.drop_eq_getElem_cons hlt, hget]
    have hbs2 : '\\' ∉ l.take k ++ l.drop (k + 1) := by
      intro hm
      rcases List.mem_append.mp hm with hm | hm
      · exact hbs (List.take_subset k l hm)
      · exact hbs (List.drop_subset _ l hm)
    have e1 : l.count '}' = (l.take k ++ l.drop (k + 1)).count '}' + 1 := by
      conv_lhs => rw [hsplit]
      simp [List.count_append, List.count_cons]
      try omega
    have e2 : l.count '{' = (l.take k ++ l.drop (k + 1)).count '{' := by
      conv_lhs => rw [hsplit]
      simp [List.count_append, List.count_cons]
      try omega
    obtain ⟨r1, r2⟩ := ih (l.take k ++ l.drop (k + 1)) hbs2 (by omega)
    exact ⟨r1, by omega⟩

theorem fixUnbalancedBraces_plain {l : List Char} (hbs : '\\' ∉ l) :
    (fixUnbalancedBraces l).count '{' = (fixUnbalancedBraces l).count '}' ∧
    ∀ c : Char, c ∈ fixUnbalancedBraces l → c = '}' ∨ c ∈ l := by
  have hmarker : lastIndexOfCh l endDocMarker = none :=
    lastIndexOfCh_eq_none (by decide : '\\' ∈ endDocMarker) hbs
  have hd : braceDepth l = 0 + (l.count '{' : Int) - l.count '}' :=
    braceDepthGo_plain l hbs 0
  by_cases hpos : braceDepth l > 0
  · have hba : l.count '}' < l.count '{' := by omega
    have htn : (braceDepth l).toNat = l.count '{' - l.count '}' := by
      have : braceDepth l = ((l.count '{' - l.count '}' : Nat) : Int) := by
        rw [hd]
        push_cast [Nat.cast_sub (le_of_lt hba)]
        omega
      rw [this]
      exact Int.toNat_natCast _
    simp only [fixUnbalancedBraces, if_pos hpos, hmarker]
    constructor
    · simp [List.count_append, List.count_replicate, htn]
      omega
    · intro c hc
      rcases List.mem_append.mp hc with hc | hc
      · exact Or.inr hc
      · exact Or.inl (List.eq_of_mem_replicate hc)
  · by_cases hneg : braceDepth l < 0
    · have hba : l.count '{' < l.count '}' := by omega
      have htn : (-braceDepth l).toNat = l.count '}' - l.count '{' := by
        have : -braceDepth l = ((l.count '}' - l.count '{' : Nat) : Int) := by
          rw [hd]
          push_cast [Nat.cast_sub (le_of_lt hba)]
          omega
        rw [this]
        exact Int.toNat_natCast _
      simp only [fixUnbalancedBraces, if_neg hpos, if_pos hneg, hmarker]
      rw [htn]
      obtain ⟨r1, r2⟩ := removeExcess_balanced (l.count '}' - l.count '{') l hbs (by omega)
      constructor
      · simp [List.count_append]
        omega
      · intro c hc
        simp only [List.append_nil] at hc
        exact Or.inr ((removeExcess_sublist _ l).subset hc)
    · have hz : braceDepth l = 0 := by omega
      simp only [fixUnbalancedBraces, if_neg hpos, if_neg hneg]
      constructor
      · omega
      · intro c hc
        exact Or.inr hc

theorem fixDoubledBackslashLine_id {line : List Char} (h : '\\' ∉ line) :
    fixDoubledBackslashLine line = line := by
  have hfalse : headIs '\\' (line.drop (line.takeWhile isSpaceTab).length) = false :=
    headIs_eq_false_of_not_mem h _
  simp only [fixDoubledBackslashLine]
  rw [if_neg (by simp [hfalse])]

theorem fbsGo_cons_other (fuel : Nat) {c : Char} (rest : List Char) (hc : c ≠ '\\') :
    fbsGo (fuel + 1) (c :: rest) = c :: fbsGo fuel rest := by
  rw [fbsGo.eq_def]
  simp [hc]

theorem fbsGo_id : ∀ (fuel : Nat) (l : List Char), '\\' ∉ l → fbsGo fuel l = l := by
  intro fuel
  induction fuel with
  | zero => intro l _; rfl
  | succ fuel ih =>
    intro l h
    cases l with
    | nil => rfl
    | cons c rest =>
      have hc : c ≠ '\\' := fun he => h (he ▸ List.mem_cons_self c rest)
      rw [fbsGo_cons_other fuel rest hc, ih rest (fun hm => h (List.mem_cons_of_mem c hm))]

theorem removeEmptyCmdGo_cons_other {pat : List Char} (fuel : Nat) {c : Char}
    (rest : List Char) (hp : pat.isPrefixOf (c :: rest) = false) :
    removeEmptyCmdGo pat (fuel + 1) (c :: rest) = c :: removeEmptyCmdGo pat fuel rest := by
  rw [removeEmptyCmdGo.eq_def]
  simp [hp]

theorem removeEmptyCmdGo_id {pat : List Char} {p : Char} (hp : pat.head? = some p) :
    ∀ (fuel : Nat) (l : List Char), p ∉ l → removeEmptyCmdGo pat fuel l = l := by
  intro fuel
  induction fuel with
  | zero => intro l _; rfl
  | succ fuel ih =>
    intro l h
    cases l with
    | nil => rfl
    | cons c rest =>
      rw [removeEmptyCmdGo_cons_other fuel rest (isPrefixOf_eq_false_of_head hp h),
        ih rest (fun hm => h (List.mem_cons_of_mem c hm))]

theorem findCmdMatch_none (namePat : List Char) :
    ∀ (fuel : Nat) (l : List Char), '\\' ∉ l → findCmdMatch namePat fuel l = none := by
  intro fuel
  induction fuel with
  | zero => intro l _; rfl
  | succ fuel ih =>
    intro l h
    cases l with
    | nil => rfl
    | cons c rest =>
      have hp : ('\\' :: namePat).isPrefixOf (c :: rest) = false :=
        isPrefixOf_cons_eq_false h
      rw [findCmdMatch.eq_def]
      simp only [hp, Bool.false_eq_true, if_false]
      rw [ih rest (fun hm => h (List.mem_cons_of_mem c hm))]

theorem collapseTitlesecCommand_id {namePat l : List Char} (h : '\\' ∉ l) :
    collapseTitlesecCommand namePat l = l := by
  unfold collapseTitlesecCommand collapseTitlesecGo
  rw [findCmdMatch_none namePat l.length l h]

theorem fixUppercaseInTitleformat_id {l : List Char} (h : '\\' ∉ l) :
    fixUppercaseInTitleformat l = l := by
  unfold fixUppercaseInTitleformat
  have hmap : ∀ line ∈ splitLinesCh l,
      (if containsSub line titleformatWord then
        upperWords.foldl (fun acc w => removeWordWs w acc.length acc) line
       else line) = line := by
    intro line hline
    have hnb : '\\' ∉ line := fun hm => h (mem_of_mem_splitLinesCh hline hm)
    rw [if_neg (by simp [containsSub_eq_false (by decide : '\\' ∈ titleformatWord) hnb])]
  rw [List.map_congr_left hmap, List.map_id', joinLinesCh_splitLinesCh]

theorem lineIsTf_eq_false {line : List Char} (h : '\\' ∉ line) :
    lineIsTf line = false := by
  unfold lineIsTf
  apply isPrefixOf_eq_false_of_head (by decide : titleformatWord.head? = some '\\')
  intro hm
  exact h ((List.dropWhile_sublist jsWhitespace (l := line)).subset hm)

theorem vtfGo_id : ∀ (fuel : Nat) (lines : List (List Char)),
    (∀ line ∈ lines, '\\' ∉ line) → vtfGo fuel lines = lines := by
  intro fuel
  induction fuel with
  | zero => intro lines _; rfl
  | succ fuel ih =>
    intro lines h
    cases lines with
    | nil => rfl
    | cons line rest =>
      have h1 : '\\' ∉ line := h line (List.mem_cons_self line rest)
      rw [vtfGo.eq_def]
      simp only [lineIsTf_eq_false h1, Bool.false_eq_true, if_false]
      rw [ih rest (fun x hx => h x (List.mem_cons_of_mem line hx))]

theorem validateTitleformatArgs_id {l : List Char} (h : '\\' ∉ l) :
    validateTitleformatArgs l = l := by
  simp only [validateTitleformatArgs]
  rw [vtfGo_id (splitLinesCh l).length (splitLinesCh l)
      (fun line hline hm => h (mem_of_mem_splitLinesCh hline hm)),
    joinLinesCh_splitLinesCh]

theorem fixTitlesecCommands_id {l : List Char} (h : '\\' ∉ l) :
    fixTitlesecCommands l = l := by
  simp only [fixTitlesecCommands]
  rw [collapseTitlesecCommand_id h, collapseTitlesecCommand_id h,
    collapseTitlesecCommand_id h, fixUppercaseInTitleformat_id h,
    validateTitleformatArgs_id h]

theorem fixCommonCommandErrors_id {l : List Char} (h : '\\' ∉ l) :
    fixCommonCommandErrors l = l := by
  simp only [fixCommonCommandErrors]
  have hmap : ∀ line ∈ splitLinesCh l, fixDoubledBackslashLine line = line := by
    intro line hline
    exact fixDoubledBackslashLine_id (fun hm => h (mem_of_mem_splitLinesCh hline hm))
  rw [List.map_congr_left hmap, List.map_id', joinLinesCh_splitLinesCh]
  have h1 : fixBsBeforeSection l = l := by
    unfold fixBsBeforeSection
    exact fbsGo_id l.length l h
  rw [h1]
  have h2 : removeEmptyCmd textbfOpen l = l := by
    unfold removeEmptyCmd
    exact removeEmptyCmdGo_id (by decide) l.length l h
  rw [h2]
  have h3 : removeEmptyCmd textitOpen l = l := by
    unfold removeEmptyCmd
    exact removeEmptyCmdGo_id (by decide) l.length l h
  rw [h3]
  exact fixTitlesecCommands_id h

theorem mdBoldGo_cons_other (fuel : Nat) {c : Char} (rest : List Char) (hc : c ≠ '*') :
    mdBoldGo (fuel + 1) (c :: rest) = c :: mdBoldGo fuel rest := by
  rw [mdBoldGo.eq_def]
  simp [hc]

theorem mdBoldGo_id : ∀ (fuel : Nat) (l : List Char), '*' ∉ l → mdBoldGo fuel l = l := by
  intro fuel
  induction fuel with
  | zero => intro l _; rfl
  | succ fuel ih =>
    intro l h
    cases l with
    | nil => rfl
    | cons c rest =>
      have hc : c ≠ '*' := fun he => h (he ▸ List.mem_cons_self c rest)
      rw [mdBoldGo_cons_other fuel rest hc, ih rest (fun hm => h (List.mem_cons_of_mem c hm))]

theorem mdItalGo_cons_other (prev : Option Char) (fuel : Nat) {c : Char}
    (rest : List Char) (hc : c ≠ '*') :
    mdItalGo prev (fuel + 1) (c :: rest) = c :: mdItalGo (some c) fuel rest := by
  rw [mdItalGo.eq_def]
  simp [hc]

theorem mdItalGo_id : ∀ (fuel : Nat) (l : List Char), '*' ∉ l → ∀ prev,
    mdItalGo prev fuel l = l := by
  intro fuel
  induction fuel with
  | zero => intro l _ _; rfl
  | succ fuel ih =>
    intro l h prev
    cases l with
    | nil => rfl
    | cons c rest =>
      have hc : c ≠ '*' := fun he => h (he ▸ List.mem_cons_self c rest)
      rw [mdItalGo_cons_other prev fuel rest hc,
        ih rest (fun hm => h (List.mem_cons_of_mem c hm)) (some c)]

theorem mdCodeGo_cons_other (fuel : Nat) {c : Char} (rest : List Char)
    (hc : c ≠ backquoteChar) :
    mdCodeGo (fuel + 1) (c :: rest) = c :: mdCodeGo fuel rest := by
  rw [mdCodeGo.eq_def]
  simp [hc]

theorem mdCodeGo_id : ∀ (fuel : Nat) (l : List Char), backquoteChar ∉ l →
    mdCodeGo fuel l = l := by
  intro fuel
  induction fuel with
  | zero => intro l _; rfl
  | succ fuel ih =>
    intro l h
    cases l with
    | nil => rfl
    | cons c rest =>
      have hc : c ≠ backquoteChar := fun he => h (he ▸ List.mem_cons_self c rest)
      rw [mdCodeGo_cons_other fuel rest hc, ih rest (fun hm => h (List.mem_cons_of_mem c hm))]

theorem removeMarkdownArtifacts_id {l : List Char} (hs : '*' ∉ l)
    (hq : backquoteChar ∉ l) : removeMarkdownArtifacts l = l := by
  simp only [removeMarkdownArtifacts]
  rw [mdBoldGo_id l.length l hs, mdItalGo_id l.length l hs none, mdCodeGo_id l.length l hq]

theorem bsNext_cons (q : Char → Bool) (c : Char) (rest : List Char) :
    bsNext q (c :: rest) =
      (if c = '\\' then
        (match rest with
         | d :: rest2 => if q d then bsNext q rest2 else false
         | [] => false)
       else bsNext q rest) := by
  conv_lhs => rw [bsNext.eq_def]

theorem bsNextW_cons (q : Char → Bool) (c : Char) (rest : List Char) :
    bsNextW q (c :: rest) =
      (if c = '\\' then
        (match rest with
         | d :: rest2 => if q d then bsNextW q rest2 else false
         | [] => true)
       else bsNextW q rest) := by
  conv_lhs => rw [bsNextW.eq_def]

theorem bsNext_cons_other {q : Char → Bool} {c : Char} (hc : c ≠ '\\')
    (rest : List Char) : bsNext q (c :: rest) = bsNext q rest := by
  rw [bsNext_cons, if_neg hc]

theorem bsNextW_cons_other {q : Char → Bool} {c : Char} (hc : c ≠ '\\')
    (rest : List Char) : bsNextW q (c :: rest) = bsNextW q rest := by
  rw [bsNextW_cons, if_neg hc]

theorem bsNext_cons_bs (q : Char → Bool) (d : Char) (rest2 : List Char) :
    bsNext q ('\\' :: d :: rest2) = if q d then bsNext q rest2 else false := by
  rw [bsNext_cons, if_pos rfl]

theorem bsNextW_cons_bs (q : Char → Bool) (d : Char) (rest2 : List Char) :
    bsNextW q ('\\' :: d :: rest2) = if q d then bsNextW q rest2 else false := by
  rw [bsNextW_cons, if_pos rfl]

theorem bsNext_bs_elim {q : Char → Bool} {rest : List Char}
    (h : bsNext q ('\\' :: rest) = true) :
    ∃ d rest2, rest = d :: rest2 ∧ q d = true ∧ bsNext q rest2 = true := by
  cases rest with
  | nil =>
    rw [bsNext_cons, if_pos rfl] at h
    exact absurd h (by simp)
  | cons d rest2 =>
    rw [bsNext_cons_bs] at h
    by_cases hq : q d = true
    · rw [if_pos hq] at h
      exact ⟨d, rest2, rfl, hq, h⟩
    · rw [if_neg (by simpa using hq)] at h
      exact absurd h (by simp)

theorem bsNextW_bs_elim {q : Char → Bool} {d : Char} {rest2 : List Char}
    (h : bsNextW q ('\\' :: d :: rest2) = true) :
    q d = true ∧ bsNextW q rest2 = true := by
  rw [bsNextW_cons_bs] at h
  by_cases hq : q d = true
  · rw [if_pos hq] at h
    exact ⟨hq, h⟩
  · rw [if_neg (by simpa using hq)] at h
    exact absurd h (by simp)

theorem bsNext_tail {q : Char → Bool} (hq : q '\\' = false) :
    ∀ {l : List Char}, bsNext q l = true → bsNext q l.tail = true := by
  intro l h
  cases l with
  | nil => exact h
  | cons c rest =>
    by_cases hc : c = '\\'
    · subst hc
      obtain ⟨d, rest2, hrest, hqd, h2⟩ := bsNext_bs_elim h
      subst hrest
      have hd : d ≠ '\\' := by
        intro he
        rw [he] at hqd
        rw [hq] at hqd
        exact absurd hqd (by simp)
      simpa [bsNext_cons_other hd] using h2
    · rwa [bsNext_cons_other hc] at h

theorem bsNext_drop {q : Char → Bool} (hq : q '\\' = false) :
    ∀ (k : Nat) {l : List Char}, bsNext q l = true → bsNext q (l.drop k) = true := by
  intro k
  induction k with
  | zero => intro l h; exact h
  | succ k ih =>
    intro l h
    rw [← List.tail_drop]
    exact bsNext_tail hq (ih h)

theorem bsNextW_of_bsNext {q : Char → Bool} (hq : q '\\' = false) :
    ∀ {l : List Char}, bsNext q l = true → bsNextW q l = true := by
  intro l
  induction l with
  | nil => intro _; rfl
  | cons c rest ih =>
    intro h
    by_cases hc : c = '\\'
    · subst hc
      obtain ⟨d, rest2, hrest, hqd, h2⟩ := bsNext_bs_elim h
      subst hrest
      have hd : d ≠ '\\' := by
        intro he
        rw [he, hq] at hqd
        exact absurd hqd (by simp)
      have hrest : bsNext q (d :: rest2) = true := by
        rwa [bsNext_cons_other hd]
      have hw : bsNextW q (d :: rest2) = true := ih hrest
      rw [bsNextW_cons_bs, if_pos hqd]
      rwa [bsNextW_cons_other hd] at hw
    · rw [bsNextW_cons_other hc]
      rw [bsNext_cons_other hc] at h
      exact ih h

theorem bsNextW_tail {q : Char → Bool} (hq : q '\\' = false) :
    ∀ {l : List Char}, bsNextW q l = true → bsNextW q l.tail = true := by
  intro l h
  cases l with
  | nil => exact h
  | cons c rest =>
    by_cases hc : c = '\\'
    · subst hc
      cases rest with
      | nil => rfl
      | cons d rest2 =>
        obtain ⟨hqd, h2⟩ := bsNextW_bs_elim h
        have hd : d ≠ '\\' := by
          intro he
          rw [he, hq] at hqd
          exact absurd hqd (by simp)
        simpa [bsNextW_cons_other hd] using h2
    · rwa [bsNextW_cons_other hc] at h

theorem bsNextW_drop {q : Char → Bool} (hq : q '\\' = false) :
    ∀ (k : Nat) {l : List Char}, bsNextW q l = true → bsNextW q (l.drop k) = true := by
  intro k
  induction k with
  | zero => intro l h; exact h
  | succ k ih =>
    intro l h
    rw [← List.tail_drop]
    exact bsNextW_tail hq (ih h)

theorem bsNextW_take {q : Char → Bool} (hq : q '\\' = false) :
    ∀ (l : List Char), bsNextW q l = true → ∀ k, bsNextW q (l.take k) = true := by
  intro l
  induction l with
  | nil => intro _ k; simp [List.take_nil]; rfl
  | cons c rest ih =>
    intro h k
    cases k with
    | zero => rfl
    | succ k =>
      rw [List.take_succ_cons]
      by_cases hc : c = '\\'
      · subst hc
        cases rest with
        | nil => simpa using h
        | cons d rest2 =>
          obtain ⟨hqd, h2⟩ := bsNextW_bs_elim h
          have hd : d ≠ '\\' := by
            intro he
            rw [he, hq] at hqd
            exact absurd hqd (by simp)
          have hrest : bsNextW q (d :: rest2) = true := by
            rwa [bsNextW_cons_other hd]
          cases k with
          | zero => rw [List.take_zero]; rfl
          | succ k =>
            have htk := ih hrest (k + 1)
            rw [List.take_succ_cons, bsNextW_cons_other hd] at htk
            rw [List.take_succ_cons, bsNextW_cons_bs, if_pos hqd]
            exact htk
      · rw [bsNextW_cons_other hc]
        rw [bsNextW_cons_other hc] at h
        exact ih h k

theorem bsNext_of_no_bs {q : Char → Bool} :
    ∀ {l : List Char}, '\\' ∉ l → bsNext q l = true := by
  intro l
  induction l with
  | nil => intro _; rfl
  | cons c rest ih =>
    intro h
    have hc : c ≠ '\\' := fun he => h (he ▸ List.mem_cons_self c rest)
    rw [bsNext_cons_other hc]
    exact ih (fun hm => h (List.mem_cons_of_mem c hm))

theorem bsNext_append {q : Char → Bool} (hq : q '\\' = false) :
    ∀ {a b : List Char}, bsNext q a = true → bsNext q b = true →
      bsNext q (a ++ b) = true := by
  intro a
  induction a with
  | nil => intro b _ hb; exact hb
  | cons c rest ih =>
    intro b h hb
    by_cases hc : c = '\\'
    · subst hc
      obtain ⟨d, rest2, hrest, hqd, h2⟩ := bsNext_bs_elim h
      subst hrest
      have hd : d ≠ '\\' := by
        intro he
        rw [he, hq] at hqd
        exact absurd hqd (by simp)
      have hrest : bsNext q (d :: rest2) = true := by
        rwa [bsNext_cons_other hd]
      have happ := ih hrest hb
      rw [List.cons_append, bsNext_cons_other hd] at happ
      rw [List.cons_append, List.cons_append, bsNext_cons_bs, if_pos hqd]
      exact happ
    · rw [List.cons_append, bsNext_cons_other hc]
      rw [bsNext_cons_other hc] at h
      exact ih h hb

/-- Removing one non-backslash character whose successor set fails q from
the middle of a list preserves the invariant (the character before it
cannot be a backslash). -/
theorem bsNext_append_dropMid {q : Char → Bool} (hq : q '\\' = false)
    {x : Char} (hx : q x = false) (hxb : x ≠ '\\') :
    ∀ {a b : List Char}, bsNext q (a ++ x :: b) = true →
      bsNext q (a ++ b) = true := by
  intro a
  induction a with
  | nil =>
    intro b h
    rwa [List.nil_append, bsNext_cons_other hxb, ← List.nil_append b] at h
  | cons c rest ih =>
    intro b h
    by_cases hc : c = '\\'
    · subst hc
      rw [List.cons_append] at h
      obtain ⟨d, t, hrt, hqd, h2⟩ := bsNext_bs_elim h
      cases rest with
      | nil =>
        simp only [List.nil_append, List.cons.injEq] at hrt
        obtain ⟨hxd, -⟩ := hrt
        rw [← hxd, hx] at hqd
        exact absurd hqd (by simp)
      | cons d0 a3 =>
        simp only [List.cons_append, List.cons.injEq] at hrt
        obtain ⟨hd0, ht⟩ := hrt
        subst hd0
        subst ht
        have hd : d0 ≠ '\\' := by
          intro he
          rw [he, hq] at hqd
          exact absurd hqd (by simp)
        have hpre : bsNext q ((d0 :: a3) ++ x :: b) = true := by
          rw [List.cons_append, bsNext_cons_other hd]
          exact h2
        have hres := ih hpre
        rw [List.cons_append, bsNext_cons_other hd] at hres
        rw [List.cons_append, List.cons_append, bsNext_cons_bs, if_pos hqd]
        exact hres
    · rw [List.cons_append, bsNext_cons_other hc] at h
      rw [List.cons_append, bsNext_cons_other hc]
      exact ih h

theorem bsNext_mono {q q' : Char → Bool} (hq : q '\\' = false)
    (hmono : ∀ x, q x = true → q' x = true) :
    ∀ {l : List Char}, bsNext q l = true → bsNext q' l = true := by
  intro l
  induction l with
  | nil => intro _; rfl
  | cons c rest ih =>
    intro h
    by_cases hc : c = '\\'
    · subst hc
      obtain ⟨d, rest2, hrest, hqd, h2⟩ := bsNext_bs_elim h
      subst hrest
      have hd : d ≠ '\\' := by
        intro he
        rw [he, hq] at hqd
        exact absurd hqd (by simp)
      have hrest : bsNext q (d :: rest2) = true := by
        rwa [bsNext_cons_other hd]
      have hres := ih hrest
      rw [bsNext_cons_other hd] at hres
      rw [bsNext_cons_bs, if_pos (hmono d hqd)]
      exact hres
    · rw [bsNext_cons_other hc]
      rw [bsNext_cons_other hc] at h
      exact ih h

theorem bsNext_takeWhile {q : Char → Bool} {p : Char → Bool}
    (hq : q '\\' = false) (hp : ∀ x, q x = true → p x = true) :
    ∀ {l : List Char}, bsNext q l = true → bsNext q (l.takeWhile p) = true := by
  intro l
  induction l with
  | nil => intro _; rfl
  | cons c rest ih =>
    intro h
    by_cases hpc : p c = true
    · rw [List.takeWhile_cons_of_pos hpc]
      by_cases hc : c = '\\'
      · subst hc
        obtain ⟨d, rest2, hrest, hqd, h2⟩ := bsNext_bs_elim h
        subst hrest
        have hd : d ≠ '\\' := by
          intro he
          rw [he, hq] at hqd
          exact absurd hqd (by simp)
        have hrest : bsNext q (d :: rest2) = true := by
          rwa [bsNext_cons_other hd]
        have htk := ih hrest
        rw [List.takeWhile_cons_of_pos (hp d hqd), bsNext_cons_other hd] at htk
        rw [List.takeWhile_cons_of_pos (hp d hqd), bsNext_cons_bs, if_pos hqd]
        exact htk
      · rw [bsNext_cons_other hc]
        rw [bsNext_cons_other hc] at h
        exact ih h
    · rw [List.takeWhile_cons_of_neg (by simpa using hpc)]
      rfl

theorem bsNext_dropWhile {q : Char → Bool} {p : Char → Bool}
    (hq : q '\\' = false) :
    ∀ {l : List Char}, bsNext q l = true → bsNext q (l.dropWhile p) = true := by
  intro l
  induction l with
  | nil => intro _; rfl
  | cons c rest ih =>
    intro h
    by_cases hpc : p c = true
    · rw [List.dropWhile_cons_of_pos hpc]
      by_cases hc : c = '\\'
      · subst hc
        obtain ⟨d, rest2, hrest, hqd, h2⟩ := bsNext_bs_elim h
        subst hrest
        have hd : d ≠ '\\' := by
          intro he
          rw [he, hq] at hqd
          exact absurd hqd (by simp)
        refine ih ?_
        rwa [bsNext_cons_other hd]
      · rw [bsNext_cons_other hc] at h
        exact ih h
    · rwa [List.dropWhile_cons_of_neg (by simpa using hpc)]

/-- A pattern of at least two characters starting with a backslash whose
second character fails q never occurs as a prefix of a list whose
backslashes all have q-successors. -/
theorem isPrefixOf_eq_false_bs2 {q : Char → Bool} {pat l : List Char}
    (hlen : 2 ≤ pat.length) (h0 : pat.getD 0 ' ' = '\\')
    (h1 : q (pat.getD 1 ' ') = false) (hl : bsNextW q l = true) :
    pat.isPrefixOf l = false := by
  cases pat with
  | nil => simp at hlen
  | cons p0 pt =>
    cases pt with
    | nil => simp at hlen
    | cons p1 pt2 =>
      simp only [List.getD_cons_zero] at h0
      subst h0
      simp only [List.getD_cons_succ, List.getD_cons_zero] at h1
      cases l with
      | nil => rfl
      | cons c rest =>
        by_cases hc : c = '\\'
        · subst hc
          cases rest with
          | nil => simp [List.isPrefixOf]
          | cons d rest2 =>
            obtain ⟨hqd, -⟩ := bsNextW_bs_elim hl
            have hne : p1 ≠ d := by
              intro he
              rw [he, hqd] at h1
              exact absurd h1 (by simp)
            simp [List.isPrefixOf, hne]
        · simp [List.isPrefixOf, Ne.symm hc]

/-- With the pattern excluded at every offset, there is no occurrence
index at all. -/
theorem subIndexes_eq_nil_of_forall {l pat : List Char}
    (h : ∀ k, pat.isPrefixOf (l.drop k) = false) : subIndexes l pat = [] := by
  rw [List.eq_nil_iff_forall_not_mem]
  intro k hk
  obtain ⟨-, hp⟩ := mem_subIndexes.mp hk
  rw [h k] at hp
  exact absurd hp (by simp)

theorem lastIndexOfCh_eq_none_bs2 {q : Char → Bool} {pat l : List Char}
    (hq : q '\\' = false) (hlen : 2 ≤ pat.length) (h0 : pat.getD 0 ' ' = '\\')
    (h1 : q (pat.getD 1 ' ') = false) (hl : bsNext q l = true) :
    lastIndexOfCh l pat = none := by
  unfold lastIndexOfCh
  rw [subIndexes_eq_nil_of_forall (fun k => isPrefixOf_eq_false_bs2 hlen h0 h1
    (bsNextW_drop hq k (bsNextW_of_bsNext hq hl)))]
  rfl

theorem containsSub_eq_false_bs2 {q : Char → Bool} {pat l : List Char}
    (hq : q '\\' = false) (hlen : 2 ≤ pat.length) (h0 : pat.getD 0 ' ' = '\\')
    (h1 : q (pat.getD 1 ' ') = false) (hl : bsNext q l = true) :
    containsSub l pat = false := by
  unfold containsSub indexOfCh
  rw [subIndexes_eq_nil_of_forall (fun k => isPrefixOf_eq_false_bs2 hlen h0 h1
    (bsNextW_drop hq k (bsNextW_of_bsNext hq hl)))]
  rfl

/-- Splitting at newlines preserves the invariant on every line (the
successor set must exclude backslash and newline, so no pair is cut). -/
theorem bsNext_splitLinesCh {q : Char → Bool} (hq : q '\\' = false)
    (hqn : q '\n' = false) :
    ∀ {l : List Char}, bsNext q l = true →
      ∀ line ∈ splitLinesCh l, bsNext q line = true := by
  intro l
  induction l with
  | nil =>
    intro _ line hline
    simp [splitLinesCh] at hline
    subst hline
    rfl
  | cons c rest ih =>
    intro h line hline
    simp only [splitLinesCh] at hline
    by_cases hc : c = '\n'
    · subst hc
      rw [if_pos rfl] at hline
      rw [bsNext_cons_other (by decide)] at h
      rcases List.mem_cons.mp hline with hline | hline
      · subst hline; rfl
      · exact ih h line hline
    · rw [if_neg hc] at hline
      obtain ⟨h0, t0, hs⟩ : ∃ h0 t0, splitLinesCh rest = h0 :: t0 := by
        cases hs : splitLinesCh rest with
        | nil => exact absurd hs (splitLinesCh_ne_nil rest)
        | cons x y => exact ⟨x, y, rfl⟩
      rw [hs] at hline
      simp only [List.headD_cons, List.tail_cons] at hline
      by_cases hcb : c = '\\'
      · subst hcb
        obtain ⟨d, rest2, hrest, hqd, h2⟩ := bsNext_bs_elim h
        subst hrest
        have hd : d ≠ '\\' := by
          intro he
          rw [he, hq] at hqd
          exact absurd hqd (by simp)
        have hdn : d ≠ '\n' := by
          intro he
          rw [he, hqn] at hqd
          exact absurd hqd (by simp)
        have hrest : bsNext q (d :: rest2) = true := by
          rwa [bsNext_cons_other hd]
        -- the head line of the tail starts with d
        obtain ⟨h1, t1, hs2⟩ : ∃ h1 t1, splitLinesCh rest2 = h1 :: t1 := by
          cases hs2 : splitLinesCh rest2 with
          | nil => exact absurd hs2 (splitLinesCh_ne_nil rest2)
          | cons x y => exact ⟨x, y, rfl⟩
        have hs' : splitLinesCh (d :: rest2) = (d :: h1) :: t1 := by
          simp only [splitLinesCh, if_neg hdn, hs2, List.headD_cons, List.tail_cons]
        obtain ⟨hh0, ht0⟩ : h0 = d :: h1 ∧ t0 = t1 := by
          have heq := hs.symm.trans hs'
          simp only [List.cons.injEq] at heq
          exact heq
        rcases List.mem_cons.mp hline with hline | hline
        · subst hline
          have hhead : bsNext q h0 = true :=
            ih hrest h0 (by rw [hs]; exact List.mem_cons_self h0 t0)
          rw [hh0] at hhead ⊢
          rw [bsNext_cons_other hd] at hhead
          rw [bsNext_cons_bs, if_pos hqd]
          exact hhead
        · exact ih hrest line (by rw [hs]; exact List.mem_cons_of_mem h0 hline)
      · rw [bsNext_cons_other hcb] at h
        rcases List.mem_cons.mp hline with hline | hline
        · subst hline
          have hhead : bsNext q h0 = true :=
            ih h h0 (by rw [hs]; exact List.mem_cons_self h0 t0)
          rw [bsNext_cons_other hcb]
          exact hhead
        · exact ih h line (by rw [hs]; exact List.mem_cons_of_mem h0 hline)

/-- Joining lines that each satisfy the invariant yields a document that
satisfies it (the successor set must exclude backslash, so no line ends in
one). -/
theorem bsNext_joinLinesCh {q : Char → Bool} (hq : q '\\' = false) :
    ∀ (ls : List (List Char)), (∀ line ∈ ls, bsNext q line = true) →
      bsNext q (joinLinesCh ls) = true := by
  intro ls
  induction ls with
  | nil => intro _; rfl
  | cons l rest ih =>
    intro h
    by_cases he : rest.isEmpty
    · have hj : joinLinesCh (l :: rest) = l := by
        simp [joinLinesCh, he]
      rw [hj]
      exact h l (List.mem_cons_self l rest)
    · have hj : joinLinesCh (l :: rest) = l ++ '\n' :: joinLinesCh rest := by
        simp [joinLinesCh, he]
      rw [hj]
      refine bsNext_append hq (h l (List.mem_cons_self l rest)) ?_
      rw [bsNext_cons_other (by decide)]
      exact ih (fun x hx => h x (List.mem_cons_of_mem l hx))

/-- The hash-escaping scan on a backslash-free line only produces
backslashes immediately followed by a hash. -/
theorem bsNext_escapeHashGo {q : Char → Bool} (hqh : q '#' = true) :
    ∀ (l : List Char), '\\' ∉ l → ∀ prev,
      bsNext q (escapeHashGo prev l) = true := by
  intro l
  induction l with
  | nil => intro _ _; rfl
  | cons a rest ih =>
    intro h prev
    have hrest : '\\' ∉ rest := fun hm => h (List.mem_cons_of_mem a hm)
    by_cases ha : a = '#'
    · subst ha
      by_cases hp : prev = some '\\'
      · rw [escapeHashGo_hash_escaped hp, bsNext_cons_other (by decide)]
        exact ih hrest (some '#')
      · by_cases hd : headIsDigit rest
        · rw [escapeHashGo_hash_digit hp hd, bsNext_cons_other (by decide)]
          exact ih hrest (some '#')
        · rw [escapeHashGo_hash_esc hp (eq_false_of_ne_true hd),
            bsNext_cons_bs, if_pos hqh]
          exact ih hrest (some '#')
    · have hab : a ≠ '\\' := fun he => h (he ▸ List.mem_cons_self a rest)
      rw [escapeHashGo_other ha, bsNext_cons_other hab]
      exact ih hrest (some a)

/-- The first sanitizer pass on a backslash-free document yields a
document whose every backslash is immediately followed by a hash. -/
theorem bsNext_fixUnescapedSpecialChars {l : List Char} (h : '\\' ∉ l) :
    bsNext qHash (fixUnescapedSpecialChars l) = true := by
  unfold fixUnescapedSpecialChars
  refine bsNext_joinLinesCh (by decide) _ ?_
  intro line hline
  obtain ⟨src, hsrc, hmap⟩ := List.mem_map.mp hline
  have hsb : '\\' ∉ src := fun hm => h (mem_of_mem_splitLinesCh hsrc hm)
  subst hmap
  unfold perLineEsc
  split
  · exact bsNext_of_no_bs hsb
  · exact bsNext_escapeHashGo (by decide) src hsb none

theorem isPrefixOf_eq_false_head_ne {pat : List Char} {p : Char}
    (hhead : pat.head? = some p) {c : Char} {rest : List Char} (h : p ≠ c) :
    pat.isPrefixOf (c :: rest) = false := by
  cases pat with
  | nil => simp at hhead
  | cons a as =>
    simp only [List.head?_cons, Option.some.injEq] at hhead
    subst hhead
    simp [List.isPrefixOf, h]

theorem lastIndexOfCh_eq_none_bsW {q : Char → Bool} {pat l : List Char}
    (hq : q '\\' = false) (hlen : 2 ≤ pat.length) (h0 : pat.getD 0 ' ' = '\\')
    (h1 : q (pat.getD 1 ' ') = false) (hl : bsNextW q l = true) :
    lastIndexOfCh l pat = none := by
  unfold lastIndexOfCh
  rw [subIndexes_eq_nil_of_forall (fun k => isPrefixOf_eq_false_bs2 hlen h0 h1
    (bsNextW_drop hq k hl))]
  rfl

/-- The brace scan under the invariant computes the plain count
difference: every skipped character is a non-brace q-successor and the
verbatim markers never match. -/
theorem braceDepthGo_bsNext {q : Char → Bool}
    (hqb : ∀ x, q x = true → x ≠ '{' ∧ x ≠ '}') :
    ∀ (n : Nat) (l : List Char), l.length ≤ n → bsNext q l = true →
      ∀ d : Int, braceDepthGo l false d = d + l.count '{' - l.count '}' := by
  intro n
  induction n with
  | zero =>
    intro l hlen _ d
    have hnil : l = [] := List.eq_nil_of_length_eq_zero (Nat.le_zero.mp hlen)
    subst hnil
    have hz : braceDepthGo [] false d = d := rfl
    rw [hz]
    simp
  | succ n ih =>
    intro l hlen h d
    cases l with
    | nil =>
      have hz : braceDepthGo [] false d = d := rfl
      rw [hz]
      simp
    | cons c rest =>
      by_cases hc : c = '\\'
      · subst hc
        obtain ⟨d0, r2, hrest, hqd, h2⟩ := bsNext_bs_elim h
        subst hrest
        have hstep : braceDepthGo ('\\' :: d0 :: r2) false d =
            braceDepthGo r2 false d := by
          rw [braceDepthGo_cons,
            if_pos (⟨rfl, by simp⟩ : ('\\' : Char) = '\\' ∧ (d0 :: r2) ≠ [])]
        rw [hstep]
        have hlen2 : r2.length ≤ n := by
          simp only [List.length_cons] at hlen
          omega
        rw [ih r2 hlen2 h2 d]
        obtain ⟨hd1, hd2⟩ := hqb d0 hqd
        simp [List.count_cons, hd1, hd2]
      · have hcr : bsNext q rest = true := by rwa [bsNext_cons_other hc] at h
        have hlen2 : rest.length ≤ n := by
          simp only [List.length_cons] at hlen
          omega
        have hbv : beginVerbatimMarker.isPrefixOf (c :: rest) = false :=
          isPrefixOf_eq_false_head_ne (by decide) (fun he => hc he.symm)
        have hev : endVerbatimMarker.isPrefixOf (c :: rest) = false :=
          isPrefixOf_eq_false_head_ne (by decide) (fun he => hc he.symm)
        rw [braceDepthGo_cons, if_neg (by simp [hc] : ¬(c = '\\' ∧ rest ≠ [])),
          if_neg (by simp [hbv] : ¬(beginVerbatimMarker.isPrefixOf (c :: rest) = true)),
          if_neg (by simp [hev] : ¬(endVerbatimMarker.isPrefixOf (c :: rest) = true)),
          if_neg (by simp : ¬(false = true))]
        by_cases h1 : c = '{'
        · subst h1
          rw [if_pos rfl, ih rest hlen2 hcr]
          simp [List.count_cons]
          omega
        · rw [if_neg h1]
          by_cases h2 : c = '}'
          · subst h2
            rw [if_pos rfl, ih rest hlen2 hcr]
            simp [List.count_cons]
            omega
          · rw [if_neg h2, ih rest hlen2 hcr]
            simp [List.count_cons, h1, h2]

/-- The removal loop under the invariant: it balances the counts, keeps
the opening-brace count, and preserves the invariant. -/
theorem removeExcess_bsNext {q : Char → Bool} (hq : q '\\' = false)
    (hqe : q 'e' = false) (hqc : q '}' = false) :
    ∀ (n : Nat) (l : List Char), bsNext q l = true →
      l.count '}' = l.count '{' + n →
      (removeExcess n l).count '}' = (removeExcess n l).count '{' ∧
      (removeExcess n l).count '{' = l.count '{' ∧
      bsNext q (removeExcess n l) = true := by
  intro n
  induction n with
  | zero =>
    intro l hb hcount
    exact ⟨by simpa using hcount, rfl, hb⟩
  | succ n ih =>
    intro l hb hcount
    have hmem : '}' ∈ l := List.count_pos_iff.mp (by omega)
    obtain ⟨k, hk⟩ := lastIndexOfCh_single_isSome hmem
    rw [removeExcess_succ n hk]
    have hwin : bsNextW q ((l.take k).drop (k - 20)) = true :=
      bsNextW_drop hq _ (bsNextW_take hq l (bsNextW_of_bsNext hq hb) k)
    have hbefore : endsWithOpenEnd ((l.take k).drop (k - 20)) = false := by
      unfold endsWithOpenEnd
      rw [lastIndexOfCh_eq_none_bsW hq (by decide) (by decide)
        (by rw [show endOpenMarker.getD 1 ' ' = 'e' from by decide]; exact hqe) hwin]
    rw [if_neg (by simp [hbefore])]
    obtain ⟨hlt, hget⟩ := lastIndexOfCh_single_getElem hk
    have hsplit : l = l.take k ++ '}' :: l.drop (k + 1) := by
      conv_lhs => rw [← List.take_append_drop k l]
      rw [List.drop_eq_getElem_cons hlt, hget]
    have hb2 : bsNext q (l.take k ++ l.drop (k + 1)) = true := by
      refine bsNext_append_dropMid hq hqc (by decide) ?_
      rw [← hsplit]
      exact hb
    have e1 : l.count '}' = (l.take k ++ l.drop (k + 1)).count '}' + 1 := by
      conv_lhs => rw [hsplit]
      simp [List.count_append, List.count_cons]
      try omega
    have e2 : l.count '{' = (l.take k ++ l.drop (k + 1)).count '{' := by
      conv_lhs => rw [hsplit]
      simp [List.count_append, List.count_cons]
      try omega
    obtain ⟨r1, r2, r3⟩ := ih (l.take k ++ l.drop (k + 1)) hb2 (by omega)
    exact ⟨r1, by omega, r3⟩

/-- The brace-balancing pass under the invariant yields balanced counts
and preserves the invariant (the appended or removed closing braces are
plain characters). -/
theorem fixUnbalancedBraces_bsNext {q : Char → Bool} (hq : q '\\' = false)
    (hqe : q 'e' = false) (hqc : q '}' = false)
    (hqb : ∀ x, q x = true → x ≠ '{' ∧ x ≠ '}')
    {l : List Char} (hb : bsNext q l = true) :
    (fixUnbalancedBraces l).count '{' = (fixUnbalancedBraces l).count '}' ∧
    bsNext q (fixUnbalancedBraces l) = true := by
  have hmarker : lastIndexOfCh l endDocMarker = none :=
    lastIndexOfCh_eq_none_bsW hq (by decide) (by decide)
      (by rw [show endDocMarker.getD 1 ' ' = 'e' from by decide]; exact hqe)
      (bsNextW_of_bsNext hq hb)
  have hd : braceDepth l = 0 + (l.count '{' : Int) - l.count '}' := by
    unfold braceDepth
    exact braceDepthGo_bsNext hqb l.length l (le_refl _) hb 0
  by_cases hpos : braceDepth l > 0
  · have hba : l.count '}' < l.count '{' := by omega
    have htn : (braceDepth l).toNat = l.count '{' - l.count '}' := by
      have heq : braceDepth l = ((l.count '{' - l.count '}' : Nat) : Int) := by
        rw [hd]
        push_cast [Nat.cast_sub (le_of_lt hba)]
        omega
      rw [heq]
      exact Int.toNat_natCast _
    simp only [fixUnbalancedBraces, if_pos hpos, hmarker]
    constructor
    · simp [List.count_append, List.count_replicate, htn]
      omega
    · refine bsNext_append hq hb (bsNext_of_no_bs ?_)
      intro hm
      exact absurd (List.eq_of_mem_replicate hm) (by decide)
  · by_cases hneg : braceDepth l < 0
    · have hba : l.count '{' < l.count '}' := by omega
      have htn : (-braceDepth l).toNat = l.count '}' - l.count '{' := by
        have heq : -braceDepth l = ((l.count '}' - l.count '{' : Nat) : Int) := by
          rw [hd]
          push_cast [Nat.cast_sub (le_of_lt hba)]
          omega
        rw [heq]
        exact Int.toNat_natCast _
      simp only [fixUnbalancedBraces, if_neg hpos, if_pos hneg, hmarker]
      rw [htn]
      obtain ⟨r1, r2, r3⟩ := removeExcess_bsNext hq hqe hqc
        (l.count '}' - l.count '{') l hb (by omega)
      constructor
      · simp [List.count_append]
        omega
      · simpa using r3
    · have hz : braceDepth l = 0 := by omega
      simp only [fixUnbalancedBraces, if_neg hpos, if_neg hneg]
      exact ⟨by omega, hb⟩

/-- The doubled-backslash repair never fires on a line whose backslashes
are all followed by a hash (a doubled backslash cannot occur). -/
theorem fixDoubledBackslashLine_bsNext {line : List Char}
    (h : bsNext qHash line = true) : fixDoubledBackslashLine line = line := by
  have hbr : bsNext qHash (line.drop (line.takeWhile isSpaceTab).length) = true :=
    bsNext_drop (by decide) _ h
  cases hh : headIs '\\' (line.drop (line.takeWhile isSpaceTab).length) with
  | false =>
    simp only [fixDoubledBackslashLine]
    rw [if_neg (by simp [hh])]
  | true =>
    have hfalse2 : headIs '\\'
        (line.drop ((line.takeWhile isSpaceTab).length + 1)) = false := by
      cases hr : line.drop (line.takeWhile isSpaceTab).length with
      | nil => rw [hr] at hh; exact absurd hh (by simp [headIs])
      | cons c r2 =>
        rw [hr] at hh hbr
        have hc : c = '\\' := by simpa [headIs] using hh
        subst hc
        obtain ⟨d, r3, hrest, hqd, -⟩ := bsNext_bs_elim hbr
        subst hrest
        rw [← List.tail_drop, hr]
        have hd : d ≠ '\\' := by
          intro he
          rw [he] at hqd
          exact absurd hqd (by decide)
        simp [headIs, hd]
    simp only [fixDoubledBackslashLine]
    rw [if_neg (by simp [hfalse2])]

theorem fbsGo_cons_bs_nohead (fuel : Nat) {rest : List Char}
    (h : headIs '\\' rest = false) :
    fbsGo (fuel + 1) ('\\' :: rest) = '\\' :: fbsGo fuel rest := by
  rw [fbsGo.eq_def]
  simp [h]

theorem fbsGo_bsNext : ∀ (fuel : Nat) (l : List Char),
    bsNext qHash l = true → fbsGo fuel l = l := by
  intro fuel
  induction fuel with
  | zero => intro l _; rfl
  | succ fuel ih =>
    intro l h
    cases l with
    | nil => rfl
    | cons c rest =>
      by_cases hc : c = '\\'
      · subst hc
        obtain ⟨d, r2, hrest, hqd, h2⟩ := bsNext_bs_elim h
        subst hrest
        have hd : d ≠ '\\' := by
          intro he
          rw [he] at hqd
          exact absurd hqd (by decide)
        have hh : headIs '\\' (d :: r2) = false := by simp [headIs, hd]
        rw [fbsGo_cons_bs_nohead fuel hh,
          ih (d :: r2) (by rwa [bsNext_cons_other hd])]
      · rw [fbsGo_cons_other fuel rest hc, ih rest (bsNext_tail (by decide) h)]

theorem removeEmptyCmdGo_bsNext {pat : List Char}
    (hlen : 2 ≤ pat.length) (h0 : pat.getD 0 ' ' = '\\')
    (h1 : qHash (pat.getD 1 ' ') = false) :
    ∀ (fuel : Nat) (l : List Char), bsNext qHash l = true →
      removeEmptyCmdGo pat fuel l = l := by
  intro fuel
  induction fuel with
  | zero => intro l _; rfl
  | succ fuel ih =>
    intro l h
    cases l with
    | nil => rfl
    | cons c rest =>
      have hp : pat.isPrefixOf (c :: rest) = false :=
        isPrefixOf_eq_false_bs2 hlen h0 h1 (bsNextW_of_bsNext (by decide) h)
      rw [removeEmptyCmdGo_cons_other fuel rest hp,
        ih rest (bsNext_tail (by decide) h)]

theorem findCmdMatch_bsNext {namePat : List Char}
    (ht : qHash (namePat.getD 0 ' ') = false) (hne : namePat ≠ []) :
    ∀ (fuel : Nat) (l : List Char), bsNext qHash l = true →
      findCmdMatch namePat fuel l = none := by
  have hlen : 2 ≤ ('\\' :: namePat).length := by
    cases namePat with
    | nil => exact absurd rfl hne
    | cons a as => simp
  intro fuel
  induction fuel with
  | zero => intro l _; rfl
  | succ fuel ih =>
    intro l h
    cases l with
    | nil => rfl
    | cons c rest =>
      have hp : ('\\' :: namePat).isPrefixOf (c :: rest) = false := by
        refine isPrefixOf_eq_false_bs2 hlen (by simp) ?_
          (bsNextW_of_bsNext (by decide) h)
        rw [List.getD_cons_succ]
        exact ht
      rw [findCmdMatch.eq_def]
      simp only [hp, Bool.false_eq_true, if_false]
      rw [ih rest (bsNext_tail (by decide) h)]

theorem collapseTitlesecCommand_bsNext {namePat : List Char}
    (ht : qHash (namePat.getD 0 ' ') = false) (hne : namePat ≠ [])
    {l : List Char} (h : bsNext qHash l = true) :
    collapseTitlesecCommand namePat l = l := by
  unfold collapseTitlesecCommand collapseTitlesecGo
  rw [findCmdMatch_bsNext ht hne l.length l h]

theorem fixUppercaseInTitleformat_bsNext {l : List Char}
    (h : bsNext qHash l = true) : fixUppercaseInTitleformat l = l := by
  unfold fixUppercaseInTitleformat
  have hmap : ∀ line ∈ splitLinesCh l,
      (if containsSub line titleformatWord then
        upperWords.foldl (fun acc w => removeWordWs w acc.length acc) line
       else line) = line := by
    intro line hline
    have hbl : bsNext qHash line = true :=
      bsNext_splitLinesCh (by decide) (by decide) h line hline
    have hcs : containsSub line titleformatWord = false :=
      containsSub_eq_false_bs2 (by decide) (by decide) (by decide) (by decide) hbl
    rw [if_neg (by simp [hcs])]
  rw [List.map_congr_left hmap, List.map_id', joinLinesCh_splitLinesCh]

theorem lineIsTf_bsNext {line : List Char} (h : bsNext qHash line = true) :
    lineIsTf line = false := by
  unfold lineIsTf
  exact isPrefixOf_eq_false_bs2 (by decide) (by decide) (by decide)
    (bsNextW_of_bsNext (by decide) (bsNext_dropWhile (by decide) h))

theorem vtfGo_bsNext : ∀ (fuel : Nat) (lines : List (List Char)),
    (∀ line ∈ lines, bsNext qHash line = true) → vtfGo fuel lines = lines := by
  intro fuel
  induction fuel with
  | zero => intro lines _; rfl
  | succ fuel ih =>
    intro lines h
    cases lines with
    | nil => rfl
    | cons line rest =>
      have h1 : bsNext qHash line = true := h line (List.mem_cons_self line rest)
      rw [vtfGo.eq_def]
      simp only [lineIsTf_bsNext h1, Bool.false_eq_true, if_false]
      rw [ih rest (fun x hx => h x (List.mem_cons_of_mem line hx))]

theorem validateTitleformatArgs_bsNext {l : List Char}
    (h : bsNext qHash l = true) : validateTitleformatArgs l = l := by
  simp only [validateTitleformatArgs]
  rw [vtfGo_bsNext (splitLinesCh l).length (splitLinesCh l)
      (fun line hline => bsNext_splitLinesCh (by decide) (by decide) h line hline),
    joinLinesCh_splitLinesCh]

theorem fixTitlesecCommands_bsNext {l : List Char}
    (h : bsNext qHash l = true) : fixTitlesecCommands l = l := by
  simp only [fixTitlesecCommands]
  rw [collapseTitlesecCommand_bsNext (by decide) (by decide) h,
    collapseTitlesecCommand_bsNext (by decide) (by decide) h,
    collapseTitlesecCommand_bsNext (by decide) (by decide) h,
    fixUppercaseInTitleformat_bsNext h, validateTitleformatArgs_bsNext h]

/-- The third sanitizer pass is the identity on a document whose every
backslash is immediately followed by a hash: none of its command-oriented
repairs can match. -/
theorem fixCommonCommandErrors_bsNext {l : List Char}
    (h : bsNext qHash l = true) : fixCommonCommandErrors l = l := by
  simp only [fixCommonCommandErrors]
  have hmap : ∀ line ∈ splitLinesCh l, fixDoubledBackslashLine line = line := by
    intro line hline
    exact fixDoubledBackslashLine_bsNext
      (bsNext_splitLinesCh (by decide) (by decide) h line hline)
  rw [List.map_congr_left hmap, List.map_id', joinLinesCh_splitLinesCh]
  have h1 : fixBsBeforeSection l = l := by
    unfold fixBsBeforeSection
    exact fbsGo_bsNext l.length l h
  rw [h1]
  have h2 : removeEmptyCmd textbfOpen l = l := by
    unfold removeEmptyCmd
    exact removeEmptyCmdGo_bsNext (by decide) (by decide) (by decide) l.length l h
  rw [h2]
  have h3 : removeEmptyCmd textitOpen l = l := by
    unfold removeEmptyCmd
    exact removeEmptyCmdGo_bsNext (by decide) (by decide) (by decide) l.length l h
  rw [h3]
  exact fixTitlesecCommands_bsNext h

theorem drop_len_takeWhile (p : Char → Bool) :
    ∀ l : List Char, l.drop (l.takeWhile p).length = l.dropWhile p := by
  intro l
  induction l with
  | nil => rfl
  | cons c rest ih =>
    by_cases hc : p c = true
    · rw [List.takeWhile_cons_of_pos hc, List.dropWhile_cons_of_pos hc]
      simpa using ih
    · rw [List.takeWhile_cons_of_neg (by simpa using hc),
        List.dropWhile_cons_of_neg (by simpa using hc)]
      rfl

theorem head_dropWhile_false (p : Char → Bool) :
    ∀ {l : List Char} {d : Char} {r : List Char},
      l.dropWhile p = d :: r → p d = false := by
  intro l
  induction l with
  | nil => intro d r h; simp at h
  | cons c rest ih =>
    intro d r h
    by_cases hc : p c = true
    · rw [List.dropWhile_cons_of_pos hc] at h
      exact ih h
    · rw [List.dropWhile_cons_of_neg (by simpa using hc)] at h
      simp only [List.cons.injEq] at h
      rw [← h.1]
      exact eq_false_of_ne_true hc

theorem starStarHead_elim {l : List Char} (h : starStarHead l = true) :
    ∃ t, l = '*' :: '*' :: t := by
  rw [starStarHead.eq_def] at h
  split at h
  · next t => exact ⟨t, rfl⟩
  · exact absurd h (by simp)

theorem headIs_elim {b : Char} {l : List Char} (h : headIs b l = true) :
    ∃ t, l = b :: t := by
  cases l with
  | nil => exact absurd h (by simp [headIs])
  | cons c t =>
    have hc : c = b := by simpa [headIs] using h
    subst hc
    exact ⟨t, rfl⟩

/-- The markdown bold replacement preserves the difference of brace
counts: each rewrite inserts exactly one opening and one closing brace. -/
theorem count_diff_mdBoldGo : ∀ (fuel : Nat) (l : List Char),
    ((mdBoldGo fuel l).count '{' : Int) - (mdBoldGo fuel l).count '}' =
      (l.count '{' : Int) - l.count '}' := by
  intro fuel
  induction fuel with
  | zero => intro l; rfl
  | succ fuel ih =>
    intro l
    cases l with
    | nil => rfl
    | cons c rest =>
      by_cases hcond : c = '*' ∧ headIs '*' rest = true
      · obtain ⟨hc1, hh⟩ := hcond
        subst hc1
        obtain ⟨rest2, hrest⟩ := headIs_elim hh
        have hdrop1 : rest.drop 1 = rest2 := by rw [hrest]; rfl
        simp only [mdBoldGo]
        rw [if_pos (⟨trivial, hh⟩ : True ∧ headIs '*' rest = true)]
        rw [hdrop1, drop_len_takeWhile]
        split
        · next hinner =>
          obtain ⟨-, hstar⟩ := hinner
          obtain ⟨t2, hafter⟩ := starStarHead_elim hstar
          rw [hafter]
          have hdrop2 : (('*' :: '*' :: t2) : List Char).drop 2 = t2 := rfl
          rw [hdrop2, hrest]
          have hsplit2 : rest2 = rest2.takeWhile (· != '*') ++
              rest2.dropWhile (· != '*') :=
            (List.takeWhile_append_dropWhile (· != '*') rest2).symm
          have hca : rest2.count '{' =
              (rest2.takeWhile (· != '*')).count '{' + t2.count '{' := by
            conv_lhs => rw [hsplit2]
            rw [hafter]
            simp [List.count_append, List.count_cons]
          have hcb : rest2.count '}' =
              (rest2.takeWhile (· != '*')).count '}' + t2.count '}' := by
            conv_lhs => rw [hsplit2]
            rw [hafter]
            simp [List.count_append, List.count_cons]
          have hih := ih t2
          simp only [List.count_append, List.count_cons,
            (show textbfOpen.count '{' = 1 from by decide),
            (show textbfOpen.count '}' = 0 from by decide)]
          simp [hca, hcb]
          push_cast at hih ⊢
          omega
        · next hinner =>
          have hih := ih rest
          simp [List.count_cons]
          push_cast at hih ⊢
          omega
      · simp only [mdBoldGo]
        rw [if_neg hcond]
        have hih := ih rest
        by_cases h1 : c = '{'
        · subst h1
          simp [List.count_cons]
          push_cast at hih ⊢
          omega
        · by_cases h2 : c = '}'
          · subst h2
            simp [List.count_cons]
            push_cast at hih ⊢
            omega
          · simp [List.count_cons, h1, h2]
            push_cast at hih ⊢
            omega

/-- The markdown italic replacement preserves the difference of brace
counts. -/
theorem count_diff_mdItalGo : ∀ (fuel : Nat) (l : List Char) (prev : Option Char),
    ((mdItalGo prev fuel l).count '{' : Int) - (mdItalGo prev fuel l).count '}' =
      (l.count '{' : Int) - l.count '}' := by
  intro fuel
  induction fuel with
  | zero => intro l prev; rfl
  | succ fuel ih =>
    intro l prev
    cases l with
    | nil => rfl
    | cons c rest =>
      by_cases hc : c = '*'
      · simp only [mdItalGo]
        rw [if_pos hc, drop_len_takeWhile]
        split
        · next hinner =>
          obtain ⟨-, -, hstar, -⟩ := hinner
          obtain ⟨t1, hafter⟩ := headIs_elim hstar
          rw [hafter]
          have hdrop1 : (('*' :: t1) : List Char).drop 1 = t1 := rfl
          rw [hdrop1, hc]
          have hsplit2 : rest = rest.takeWhile (· != '*') ++
              rest.dropWhile (· != '*') :=
            (List.takeWhile_append_dropWhile (· != '*') rest).symm
          have hca : rest.count '{' =
              (rest.takeWhile (· != '*')).count '{' + t1.count '{' := by
            conv_lhs => rw [hsplit2]
            rw [hafter]
            simp [List.count_append, List.count_cons]
          have hcb : rest.count '}' =
              (rest.takeWhile (· != '*')).count '}' + t1.count '}' := by
            conv_lhs => rw [hsplit2]
            rw [hafter]
            simp [List.count_append, List.count_cons]
          have hih := ih t1 (some '*')
          simp only [List.count_append, List.count_cons,
            (show textitOpen.count '{' = 1 from by decide),
            (show textitOpen.count '}' = 0 from by decide)]
          simp [hca, hcb]
          push_cast at hih ⊢
          omega
        · next hinner =>
          have hih := ih rest (some '*')
          simp [List.count_cons, hc]
          push_cast at hih ⊢
          omega
      · simp only [mdItalGo]
        rw [if_neg hc]
        have hih := ih rest (some c)
        by_cases h1 : c = '{'
        · subst h1
          simp [List.count_cons]
          omega
        · by_cases h2 : c = '}'
          · subst h2
            simp [List.count_cons]
            omega
          · simp [List.count_cons, h1, h2]
            push_cast at hih ⊢
            omega

/-- The markdown inline-code replacement preserves the difference of brace
counts. -/
theorem count_diff_mdCodeGo : ∀ (fuel : Nat) (l : List Char),
    ((mdCodeGo fuel l).count '{' : Int) - (mdCodeGo fuel l).count '}' =
      (l.count '{' : Int) - l.count '}' := by
  intro fuel
  induction fuel with
  | zero => intro l; rfl
  | succ fuel ih =>
    intro l
    cases l with
    | nil => rfl
    | cons c rest =>
      by_cases hc : c = backquoteChar
      · simp only [mdCodeGo]
        rw [if_pos hc, drop_len_takeWhile]
        split
        · next hinner =>
          obtain ⟨-, hne⟩ := hinner
          cases hafter : rest.dropWhile (· != backquoteChar) with
          | nil => rw [hafter] at hne; exact absurd rfl hne
          | cons d t1 =>
            have hd : d = backquoteChar := by
              have := head_dropWhile_false (· != backquoteChar) hafter
              simpa using this
            have hdrop1 : ((d :: t1) : List Char).drop 1 = t1 := rfl
            rw [hdrop1, hc]
            have hsplit2 : rest = rest.takeWhile (· != backquoteChar) ++
                rest.dropWhile (· != backquoteChar) :=
              (List.takeWhile_append_dropWhile (· != backquoteChar) rest).symm
            have hca : rest.count '{' =
                (rest.takeWhile (· != backquoteChar)).count '{' + t1.count '{' := by
              conv_lhs => rw [hsplit2]
              rw [hafter]
              simp [List.count_append, List.count_cons, hd,
                (show ¬ backquoteChar = '{' from by decide)]
            have hcb : rest.count '}' =
                (rest.takeWhile (· != backquoteChar)).count '}' + t1.count '}' := by
              conv_lhs => rw [hsplit2]
              rw [hafter]
              simp [List.count_append, List.count_cons, hd,
                (show ¬ backquoteChar = '}' from by decide)]
            have hih := ih t1
            simp only [List.count_append, List.count_cons,
              (show textttOpen.count '{' = 1 from by decide),
              (show textttOpen.count '}' = 0 from by decide)]
            simp [hca, hcb,
              (show ¬ backquoteChar = '{' from by decide),
              (show ¬ backquoteChar = '}' from by decide)]
            push_cast at hih ⊢
            omega
        · next hinner =>
          have hih := ih rest
          simp [List.count_cons, hc,
            (show ¬ backquoteChar = '{' from by decide),
            (show ¬ backquoteChar = '}' from by decide)]
          push_cast at hih ⊢
          omega
      · simp only [mdCodeGo]
        rw [if_neg hc]
        have hih := ih rest
        by_cases h1 : c = '{'
        · subst h1
          simp [List.count_cons]
          push_cast at hih ⊢
          omega
        · by_cases h2 : c = '}'
          · subst h2
            simp [List.count_cons]
            push_cast at hih ⊢
            omega
          · simp [List.count_cons, h1, h2]
            push_cast at hih ⊢
            omega

/-- qHashT successors survive the bold replacement: inserted commands only
add a backslash-t pair, and copied pairs stay adjacent. -/
theorem bsNext_mdBoldGo : ∀ (n fuel : Nat) (l : List Char), fuel ≤ n →
    bsNext qHashT l = true → bsNext qHashT (mdBoldGo fuel l) = true := by
  intro n
  induction n with
  | zero =>
    intro fuel l hf h
    have h0 : fuel = 0 := Nat.le_zero.mp hf
    subst h0
    exact h
  | succ n ih =>
    intro fuel l hf h
    cases fuel with
    | zero => exact h
    | succ fuel =>
      cases l with
      | nil => rfl
      | cons c rest =>
        by_cases hcb : c = '\\'
        · subst hcb
          obtain ⟨d, r2, hrest, hqd, h2⟩ := bsNext_bs_elim h
          subst hrest
          have hd : d ≠ '*' := by
            intro he
            rw [he] at hqd
            exact absurd hqd (by decide)
          rw [mdBoldGo_cons_other fuel _ (by decide : ('\\' : Char) ≠ '*')]
          cases fuel with
          | zero => exact h
          | succ fuel2 =>
            rw [mdBoldGo_cons_other fuel2 r2 hd]
            rw [bsNext_cons_bs, if_pos hqd]
            exact ih fuel2 r2 (by omega) h2
        · by_cases hcs : c = '*' ∧ headIs '*' rest = true
          · obtain ⟨hc1, hh⟩ := hcs
            subst hc1
            have hr : bsNext qHashT rest = true := by
              rwa [bsNext_cons_other (by decide : ('*' : Char) ≠ '\\')] at h
            simp only [mdBoldGo]
            rw [if_pos (⟨trivial, hh⟩ : True ∧ headIs '*' rest = true)]
            rw [drop_len_takeWhile]
            have hr1 : bsNext qHashT (rest.drop 1) = true := bsNext_drop (by decide) 1 hr
            split
            · refine bsNext_append (by decide)
                (bsNext_append (by decide) (by decide) ?_) ?_
              · refine bsNext_takeWhile (by decide) ?_ hr1
                intro x hx
                simp [qHashT] at hx
                rcases hx with hx | hx <;> subst hx <;> decide
              · rw [bsNext_cons_other (by decide : ('}' : Char) ≠ '\\')]
                refine ih fuel _ (by omega) ?_
                exact bsNext_drop (by decide) 2 (bsNext_dropWhile (by decide) hr1)
            · rw [bsNext_cons_other (by decide : ('*' : Char) ≠ '\\')]
              exact ih fuel rest (by omega) hr
          · simp only [mdBoldGo]
            rw [if_neg hcs]
            rw [bsNext_cons_other hcb]
            refine ih fuel rest (by omega) ?_
            rwa [bsNext_cons_other hcb] at h

/-- qHashT successors survive the italic replacement. -/
theorem bsNext_mdItalGo : ∀ (n fuel : Nat) (l : List Char) (prev : Option Char),
    fuel ≤ n → bsNext qHashT l = true →
    bsNext qHashT (mdItalGo prev fuel l) = true := by
  intro n
  induction n with
  | zero =>
    intro fuel l prev hf h
    have h0 : fuel = 0 := Nat.le_zero.mp hf
    subst h0
    exact h
  | succ n ih =>
    intro fuel l prev hf h
    cases fuel with
    | zero => exact h
    | succ fuel =>
      cases l with
      | nil => rfl
      | cons c rest =>
        by_cases hcb : c = '\\'
        · subst hcb
          obtain ⟨d, r2, hrest, hqd, h2⟩ := bsNext_bs_elim h
          subst hrest
          have hd : d ≠ '*' := by
            intro he
            rw [he] at hqd
            exact absurd hqd (by decide)
          rw [mdItalGo_cons_other prev fuel _ (by decide : ('\\' : Char) ≠ '*')]
          cases fuel with
          | zero => exact h
          | succ fuel2 =>
            rw [mdItalGo_cons_other (some '\\') fuel2 r2 hd]
            rw [bsNext_cons_bs, if_pos hqd]
            exact ih fuel2 r2 (some d) (by omega) h2
        · by_cases hcs : c = '*'
          · subst hcs
            have hr : bsNext qHashT rest = true := by
              rwa [bsNext_cons_other (by decide : ('*' : Char) ≠ '\\')] at h
            simp only [mdItalGo]
            rw [if_pos (trivial : True)]
            rw [drop_len_takeWhile]
            split
            · refine bsNext_append (by decide)
                (bsNext_append (by decide) (by decide) ?_) ?_
              · refine bsNext_takeWhile (by decide) ?_ hr
                intro x hx
                simp [qHashT] at hx
                rcases hx with hx | hx <;> subst hx <;> decide
              · rw [bsNext_cons_other (by decide : ('}' : Char) ≠ '\\')]
                refine ih fuel _ (some '*') (by omega) ?_
                exact bsNext_drop (by decide) 1 (bsNext_dropWhile (by decide) hr)
            · rw [bsNext_cons_other (by decide : ('*' : Char) ≠ '\\')]
              exact ih fuel rest (some '*') (by omega) hr
          · rw [mdItalGo_cons_other prev fuel rest hcs]
            rw [bsNext_cons_other hcb]
            refine ih fuel rest (some c) (by omega) ?_
            rwa [bsNext_cons_other hcb] at h

/-- qHashT successors survive the inline-code replacement. -/
theorem bsNext_mdCodeGo : ∀ (n fuel : Nat) (l : List Char), fuel ≤ n →
    bsNext qHashT l = true → bsNext qHashT (mdCodeGo fuel l) = true := by
  intro n
  induction n with
  | zero =>
    intro fuel l hf h
    have h0 : fuel = 0 := Nat.le_zero.mp hf
    subst h0
    exact h
  | succ n ih =>
    intro fuel l hf h
    cases fuel with
    | zero => exact h
    | succ fuel =>
      cases l with
      | nil => rfl
      | cons c rest =>
        by_cases hcb : c = '\\'
        · subst hcb
          obtain ⟨d, r2, hrest, hqd, h2⟩ := bsNext_bs_elim h
          subst hrest
          have hd : d ≠ backquoteChar := by
            intro he
            rw [he] at hqd
            exact absurd hqd (by decide)
          rw [mdCodeGo_cons_other fuel _ (by decide : ('\\' : Char) ≠ backquoteChar)]
          cases fuel with
          | zero => exact h
          | succ fuel2 =>
            rw [mdCodeGo_cons_other fuel2 r2 hd]
            rw [bsNext_cons_bs, if_pos hqd]
            exact ih fuel2 r2 (by omega) h2
        · by_cases hcs : c = backquoteChar
          · have hr : bsNext qHashT rest = true := by
              have hcb2 : c ≠ '\\' := hcb
              rwa [bsNext_cons_other hcb2] at h
            simp only [mdCodeGo]
            rw [if_pos hcs]
            rw [drop_len_takeWhile]
            split
            · refine bsNext_append (by decide)
                (bsNext_append (by decide) (by decide) ?_) ?_
              · refine bsNext_takeWhile (by decide) ?_ hr
                intro x hx
                simp [qHashT] at hx
                rcases hx with hx | hx <;> subst hx <;> decide
              · rw [bsNext_cons_other (by decide : ('}' : Char) ≠ '\\')]
                refine ih fuel _ (by omega) ?_
                exact bsNext_drop (by decide) 1 (bsNext_dropWhile (by decide) hr)
            · rw [bsNext_cons_other hcb]
              exact ih fuel rest (by omega) hr
          · rw [mdCodeGo_cons_other fuel rest hcs]
            rw [bsNext_cons_other hcb]
            refine ih fuel rest (by omega) ?_
            rwa [bsNext_cons_other hcb] at h

/-- The claim-side depth scan under the invariant computes the plain count
difference (no brace is ever escaped). -/
theorem nonEscapedDepthGo_bsNext {q : Char → Bool}
    (hqb : ∀ x, q x = true → x ≠ '{' ∧ x ≠ '}') :
    ∀ (n : Nat) (l : List Char), l.length ≤ n → bsNext q l = true →
      ∀ d : Int, nonEscapedDepthGo l d = d + l.count '{' - l.count '}' := by
  intro n
  induction n with
  | zero =>
    intro l hlen _ d
    have hnil : l = [] := List.eq_nil_of_length_eq_zero (Nat.le_zero.mp hlen)
    subst hnil
    have hz : nonEscapedDepthGo [] d = d := rfl
    rw [hz]
    simp
  | succ n ih =>
    intro l hlen h d
    cases l with
    | nil =>
      have hz : nonEscapedDepthGo [] d = d := rfl
      rw [hz]
      simp
    | cons c rest =>
      by_cases hc : c = '\\'
      · subst hc
        obtain ⟨d0, r2, hrest, hqd, h2⟩ := bsNext_bs_elim h
        subst hrest
        have hstep : nonEscapedDepthGo ('\\' :: d0 :: r2) d =
            nonEscapedDepthGo r2 d := by
          rw [nonEscapedDepthGo_cons,
            if_pos (⟨rfl, by simp⟩ : ('\\' : Char) = '\\' ∧ (d0 :: r2) ≠ [])]
        rw [hstep]
        have hlen2 : r2.length ≤ n := by
          simp only [List.length_cons] at hlen
          omega
        rw [ih r2 hlen2 h2 d]
        obtain ⟨hd1, hd2⟩ := hqb d0 hqd
        simp [List.count_cons, hd1, hd2]
      · have hcr : bsNext q rest = true := by rwa [bsNext_cons_other hc] at h
        have hlen2 : rest.length ≤ n := by
          simp only [List.length_cons] at hlen
          omega
        rw [nonEscapedDepthGo_cons, if_neg (by simp [hc] : ¬(c = '\\' ∧ rest ≠ []))]
        by_cases h1 : c = '{'
        · subst h1
          rw [if_pos rfl, ih rest hlen2 hcr]
          simp [List.count_cons]
          omega
        · rw [if_neg h1]
          by_cases h2 : c = '}'
          · subst h2
            rw [if_pos rfl, ih rest hlen2 hcr]
            simp [List.count_cons]
            omega
          · rw [if_neg h2, ih rest hlen2 hcr]
            simp [List.count_cons, h1, h2]

-- ── Claim C4 ──────────────────────────────────────────────────────────

/-- Claim C4, counterexample: on the input of an opening brace followed by
a trailing backslash, the brace-balancing pass appends a closing brace
which the trailing backslash then escapes, so the sanitized output has
non-escaped brace depth 1, not 0. -/
theorem c4_counterexample :
    sanitizeLatexCh exBackslashBrace = ['{', '\\', '}'] ∧
    nonEscapedDepth (sanitizeLatexCh exBackslashBrace) ≠ 0 := by
  decide

/-- Claim C4, amended: for every input containing no backslash and no
verbatim environment, the sanitized output has net non-escaped brace
depth 0: the first pass only inserts backslash-hash pairs, the balancer
then establishes balanced non-escaped counts, the command pass is inert,
and the markdown pass inserts only balanced brace pairs and
backslash-t commands. -/
theorem c4_amended (l : List Char)
    (h : '\\' ∉ l ∧ containsSub l beginVerbatimMarker = false) :
    nonEscapedDepth (sanitizeLatexCh l) = 0 := by
  obtain ⟨hb, -⟩ := h
  by_cases hnil : l = []
  · subst hnil
    rfl
  · simp only [sanitizeLatexCh, if_neg hnil]
    have h1 : bsNext qHash (fixUnescapedSpecialChars l) = true :=
      bsNext_fixUnescapedSpecialChars hb
    obtain ⟨h2bal, h2inv⟩ := fixUnbalancedBraces_bsNext (by decide) (by decide)
      (by decide)
      (fun x hx => by
        simp [qHash] at hx
        subst hx
        exact ⟨by decide, by decide⟩) h1
    rw [fixCommonCommandErrors_bsNext h2inv]
    set m2 := fixUnbalancedBraces (fixUnescapedSpecialChars l) with hm2
    have hT : bsNext qHashT m2 = true :=
      bsNext_mono (by decide)
        (fun x hx => by
          simp [qHash] at hx
          subst hx
          decide) h2inv
    simp only [removeMarkdownArtifacts]
    set o1 := mdBoldGo m2.length m2 with ho1
    set o2 := mdItalGo none o1.length o1 with ho2
    set o3 := mdCodeGo o2.length o2 with ho3
    have hO1 : bsNext qHashT o1 = true := by
      rw [ho1]
      exact bsNext_mdBoldGo m2.length m2.length m2 (le_refl _) hT
    have hO2 : bsNext qHashT o2 = true := by
      rw [ho2]
      exact bsNext_mdItalGo o1.length o1.length o1 none (le_refl _) hO1
    have hO3 : bsNext qHashT o3 = true := by
      rw [ho3]
      exact bsNext_mdCodeGo o2.length o2.length o2 (le_refl _) hO2
    have hd1 := count_diff_mdBoldGo m2.length m2
    rw [← ho1] at hd1
    have hd2 := count_diff_mdItalGo o1.length o1 none
    rw [← ho2] at hd2
    have hd3 := count_diff_mdCodeGo o2.length o2
    rw [← ho3] at hd3
    unfold nonEscapedDepth
    rw [nonEscapedDepthGo_bsNext
      (fun x hx => by
        simp [qHashT] at hx
        rcases hx with hx | hx <;> subst hx <;> exact ⟨by decide, by decide⟩)
      o3.length o3 (le_refl _) hO3 0]
    omega

/-- Claim C4, amended witness on an under-closed document containing a
hash and markdown bold markers. -/
theorem c4_amended_witness :
    ('\\' ∉ exC4Mixed ∧ containsSub exC4Mixed beginVerbatimMarker = false) ∧
    nonEscapedDepth (sanitizeLatexCh exC4Mixed) = 0 :=
  ⟨by decide, c4_amended exC4Mixed (by decide)⟩

-- ── Claim C7 ──────────────────────────────────────────────────────────

/-- Claim C7, counterexample: on an under-closed document the pass inserts
the missing closing brace AND a newline before the end-of-document marker,
so something other than the braces changes: the claimed output (braces
only, nothing else changed) differs from the actual output. -/
theorem c7_counterexample :
    fixUnbalancedBraces exUnderClosedDoc = '{' :: '}' :: '\n' :: endDocMarker ∧
    fixUnbalancedBraces exUnderClosedDoc ≠ '{' :: '}' :: endDocMarker := by
  decide

/-- Claim C7, amended: for every input with scanned depth n > 0 whose last
end-of-document marker occurrence starts right after the prefix `pre`, the
brace-balancing pass inserts exactly n closing braces followed by one
newline immediately before the marker and changes nothing else. -/
theorem c7_amended_append_newline (l pre suf : List Char) (n : Nat)
    (hdec : l = pre ++ endDocMarker ++ suf)
    (hlast : lastIndexOfCh l endDocMarker = some pre.length)
    (hn : braceDepth l = (n : Int)) (hpos : 0 < n) :
    fixUnbalancedBraces l =
      pre ++ List.replicate n '}' ++ '\n' :: (endDocMarker ++ suf) := by
  have hgt : braceDepth l > 0 := by
    rw [hn]
    omega
  simp only [fixUnbalancedBraces, if_pos hgt, hlast]
  rw [hn]
  subst hdec
  have hassoc := List.append_assoc pre endDocMarker suf
  rw [hassoc, List.take_left, List.drop_left]
  simp [List.append_assoc]

/-- Claim C7, amended witness at a concrete under-closed document. -/
theorem c7_amended_append_newline_witness :
    lastIndexOfCh (exC7Pre ++ endDocMarker ++ exC7Suf) endDocMarker =
      some exC7Pre.length ∧
    braceDepth (exC7Pre ++ endDocMarker ++ exC7Suf) = ((1 : Nat) : Int) ∧ 0 < 1 ∧
    fixUnbalancedBraces (exC7Pre ++ endDocMarker ++ exC7Suf) =
      exC7Pre ++ List.replicate 1 '}' ++ '\n' :: (endDocMarker ++ exC7Suf) :=
  ⟨by decide, by decide, by decide,
   c7_amended_append_newline (exC7Pre ++ endDocMarker ++ exC7Suf) exC7Pre exC7Suf 1
     rfl (by decide) (by decide) (by decide)⟩

-- ── Claim C2 ──────────────────────────────────────────────────────────

/-- Claim C2: the sanitizer is not idempotent, although its own doc
comment (and the spec) promise idempotence: the markdown pass turns a bold
fragment with blank content into an empty bold command, which the next
sanitization run deletes.  This evaluates the code at the failing
input. -/
theorem c2_not_idempotent :
    sanitizeLatexCh exMarkdownBold = textbfOpen ++ [' ', '}'] ∧
    sanitizeLatexCh (sanitizeLatexCh exMarkdownBold) = [] ∧
    sanitizeLatexCh (sanitizeLatexCh exMarkdownBold) ≠ sanitizeLatexCh exMarkdownBold := by
  decide

-- ── Claim C9 ──────────────────────────────────────────────────────────

/-- An accept-if-both-markers result is present exactly when the test
passes. -/
theorem isSome_if_and {α : Type} (A B : Bool) (x : α) :
    (if A ∧ B then some x else (none : Option α)).isSome = (A && B) := by
  cases A <;> cases B <;> simp

/-- Claim C9: the response parser returns a document exactly when the
candidate text (the trimmed content of the first fenced block when one
exists, otherwise the trimmed full response) contains both the
documentclass marker and the end-of-document marker; for every response
whose candidate lacks the pair it returns none. -/
theorem c9_extract_characterization (text : List Char) :
    (extractLatexFromResponse text).isSome =
      (containsSub (candidateText text) documentclassMarker &&
       containsSub (candidateText text) endDocMarker) := by
  by_cases h : text = []
  · subst h
    decide
  · simp only [extractLatexFromResponse, if_neg h, candidateText]
    cases hf : fenceInner (trimCh text) with
    | none =>
      simp only [hf]
      exact isSome_if_and _ _ _
    | some inner =>
      simp only [hf]
      exact isSome_if_and _ _ _

-- ── Claim C10 ─────────────────────────────────────────────────────────

/-- Claim C10: on a diagnostic naming the undefined control sequence
textsc, the repair engine reports a successful fix and records its
description even though the replacement pattern occurs nowhere in the
document, so the returned document is character-for-character identical to
the input (and the retry loop will recompile an unchanged document). -/
theorem c10_fix_false_positive :
    (attemptLatexFix exDocPlain ucsLog).fixed = true ∧
    (attemptLatexFix exDocPlain ucsLog).latex = exDocPlain ∧
    (attemptLatexFix exDocPlain ucsLog).description = ucsDesc (r"textsc".data) := by
  decide

/-- Claim C8: the compiler adapter uses the remote backend exactly when the
document length is within the 6000-character threshold and local-only mode is
not forced; a remote 414 failure falls back to local compilation, while every
other remote failure status fails the call without attempting local
compilation. -/
theorem c8_backend_selection {α : Type} (preferLocal : Bool)
    (remote : List Char → RemoteOutcome α)
    (localCompile : List Char → Except (List Char) α) (src : List Char) :
    ((compileLatexToPDF preferLocal remote localCompile src).usedRemote =
      (!preferLocal && decide (src.length ≤ REMOTE_MAX_CHARS))) ∧
    (∀ body, remote src = RemoteOutcome.fail 414 body →
      (compileLatexToPDF preferLocal remote localCompile src).usedRemote = true →
      (compileLatexToPDF preferLocal remote localCompile src).usedLocal = true ∧
      (compileLatexToPDF preferLocal remote localCompile src).result = localCompile src) ∧
    (∀ status body, remote src = RemoteOutcome.fail status body → status ≠ 414 →
      (compileLatexToPDF preferLocal remote localCompile src).usedRemote = true →
      (compileLatexToPDF preferLocal remote localCompile src).usedLocal = false ∧
      (compileLatexToPDF preferLocal remote localCompile src).result =
        Except.error (compileFailMsg status body)) := by
  by_cases hbb : (!preferLocal && decide (src.length ≤ REMOTE_MAX_CHARS)) = true
  · refine ⟨?_, ?_, ?_⟩
    · cases hr : remote src with
      | ok buf => simp [compileLatexToPDF, hbb, hr]
      | fail status body =>
        by_cases hst : status = 414
        · subst hst
          simp [compileLatexToPDF, hbb, hr]
        · simp [compileLatexToPDF, hbb, hr, hst]
    · intro body hrem _
      refine ⟨?_, ?_⟩ <;> simp [compileLatexToPDF, hbb, hrem]
    · intro status body hrem hst _
      refine ⟨?_, ?_⟩ <;> simp [compileLatexToPDF, hbb, hrem, hst]
  · have hbf : (!preferLocal && decide (src.length ≤ REMOTE_MAX_CHARS)) = false :=
      eq_false_of_ne_true hbb
    have hur : (compileLatexToPDF preferLocal remote localCompile src).usedRemote = false := by
      simp [compileLatexToPDF, hbf]
    refine ⟨?_, ?_, ?_⟩
    · rw [hur, hbf]
    · intro body _ hcontra
      rw [hur] at hcontra
      cases hcontra
    · intro status body _ _ hcontra
      rw [hur] at hcontra
      cases hcontra

/-- Claim C8: the compiler adapter uses the remote backend exactly when the
document length is within the 6000-character threshold and local-only mode is
not forced; a remote 414 failure falls back to local compilation, while every
other remote failure status fails the call without attempting local
compilation. -/
theorem c8_backend_selection_witness :
    (compileLatexToPDF false (fun _ => RemoteOutcome.fail 414 [])
      (fun _ => Except.ok (0 : Nat)) ['x']).usedLocal = true ∧
    (compileLatexToPDF false (fun _ => RemoteOutcome.fail 414 [])
      (fun _ => Except.ok (0 : Nat)) ['x']).result = Except.ok 0 :=
  (c8_backend_selection false (fun _ => RemoteOutcome.fail 414 [])
    (fun _ => Except.ok (0 : Nat)) ['x']).2.1 [] rfl (by decide)

theorem retryGo_step {α : Type} (compile : List Char → Except (List Char) α)
    (maxRetries fuel attempt : Nat) (latex : List Char) (fixes : List (List Char))
    (invs : Nat) {e : List Char}
    (hc : compile latex = Except.error e)
    (hle : ¬ attempt > maxRetries)
    (hf : (attemptLatexFix latex (extractErrorLog e)).fixed = true) :
    retryGo compile maxRetries (fuel + 1) attempt latex fixes invs =
      retryGo compile maxRetries fuel (attempt + 1)
        (attemptLatexFix latex (extractErrorLog e)).latex
        (fixes ++ [(attemptLatexFix latex (extractErrorLog e)).description]) (invs + 1) := by
  rw [retryGo.eq_def]
  simp [hc, hle, hf]

theorem retryGo_stop {α : Type} (compile : List Char → Except (List Char) α)
    (maxRetries fuel attempt : Nat) (latex : List Char) (fixes : List (List Char))
    (invs : Nat) {e : List Char}
    (hc : compile latex = Except.error e) (hgt : attempt > maxRetries) :
    retryGo compile maxRetries (fuel + 1) attempt latex fixes invs =
      ⟨Except.error e, latex, fixes, invs + 1⟩ := by
  rw [retryGo.eq_def]
  simp [hc, hgt]

/-- Claim C5: for a compiler that fails on every invocation with a diagnostic
matching a fixable pattern, compileLatexWithRetry with maxRetries = 2 performs
exactly 3 compiler invocations (2 recompilations after the first), terminates
with a failure, and its fixesApplied list holds exactly one entry per applied
error-driven fix — exactly 2 such entries (plus the sanitizer entry when the
pre-sanitize pass changed the document). -/
theorem c5_retry_bound {α : Type} (compile : List Char → Except (List Char) α)
    (latexSource : List Char)
    (H : ∀ d : List Char, ∃ e, compile d = Except.error e ∧
      (attemptLatexFix d (extractErrorLog e)).fixed = true) :
    (compileLatexWithRetry compile latexSource 2).invocations = 3 ∧
    (∃ e, (compileLatexWithRetry compile latexSource 2).result = Except.error e) ∧
    (compileLatexWithRetry compile latexSource 2).fixesApplied.length =
      (if sanitizeLatexCh latexSource = latexSource then 0 else 1) + 2 := by
  obtain ⟨e1, hc1, hf1⟩ := H (sanitizeLatexCh latexSource)
  obtain ⟨e2, hc2, hf2⟩ :=
    H (attemptLatexFix (sanitizeLatexCh latexSource) (extractErrorLog e1)).latex
  obtain ⟨e3, hc3, -⟩ :=
    H (attemptLatexFix
        (attemptLatexFix (sanitizeLatexCh latexSource) (extractErrorLog e1)).latex
        (extractErrorLog e2)).latex
  simp only [compileLatexWithRetry]
  rw [retryGo_step compile 2 2 1 _ _ 0 hc1 (by omega) hf1,
    retryGo_step compile 2 1 2 _ _ 1 hc2 (by omega) hf2,
    retryGo_stop compile 2 0 3 _ _ 2 hc3 (by omega)]
  refine ⟨rfl, ⟨e3, rfl⟩, ?_⟩
  simp [List.length_append]
  split <;> simp

theorem branchMissingBrace_skip {errorLog : List Char}
    (h : containsSub errorLog missingBracePat = false) (latex : List Char)
    (fixes : List (List Char)) :
    branchMissingBrace latex errorLog fixes = (latex, fixes) := by
  unfold branchMissingBrace
  rw [if_neg (by simp [h])]

theorem branchRunaway_skip {errorLog : List Char}
    (h1 : containsSub errorLog runawayArgPat = false)
    (h2 : containsSub errorLog ttlSpacingPat = false)
    (h3 : containsSub errorLog ttlFormatPat = false)
    (h4 : containsSub errorLog ttlRowPat = false) (latex : List Char)
    (fixes : List (List Char)) :
    branchRunaway latex errorLog fixes = (latex, fixes) := by
  unfold branchRunaway
  rw [if_neg (by simp [h1, h2, h3, h4])]

theorem branchParagraphEnded_skip {errorLog : List Char}
    (h : containsSub errorLog paragraphEndedPat = false) (latex : List Char)
    (fixes : List (List Char)) :
    branchParagraphEnded latex errorLog fixes = (latex, fixes) := by
  unfold branchParagraphEnded
  rw [if_neg (by simp [h])]

theorem branchExtraBrace_skip {errorLog : List Char}
    (h1 : containsSub errorLog extraBracePat = false)
    (h2 : containsSub errorLog forgottenDollarPat = false) (latex : List Char)
    (fixes : List (List Char)) :
    branchExtraBrace latex errorLog fixes = (latex, fixes) := by
  unfold branchExtraBrace
  rw [if_neg (by simp [h1, h2])]

theorem branchMissingDollar_skip {errorLog : List Char}
    (h : containsSub errorLog missingDollarPat = false) (latex : List Char)
    (fixes : List (List Char)) :
    branchMissingDollar latex errorLog fixes = (latex, fixes) := by
  unfold branchMissingDollar
  rw [if_neg (by simp [h])]

theorem branchUCS_on_ucsLog (latex : List Char) (fixes : List (List Char)) :
    branchUndefinedCtrlSeq latex ucsLog fixes =
      (replaceCmdContentGo ('\\' :: (r"textsc".data ++ ['{'])) latex.length latex,
       fixes ++ [ucsDesc (r"textsc".data)]) := by
  unfold branchUndefinedCtrlSeq
  rw [if_pos (by decide : containsSub ucsLog undefinedCtrlSeqPat = true)]
  rw [show ucsMatch ucsLog.length ucsLog = some (r"textsc".data) from by decide]
  rfl

theorem ucs_always_fixed (d : List Char) :
    (attemptLatexFix d (extractErrorLog ucsLog)).fixed = true := by
  have hlog : extractErrorLog ucsLog = ucsLog := by decide
  rw [hlog]
  unfold attemptLatexFix
  rw [if_neg (by decide : ¬(ucsLog = []))]
  simp only [branchMissingBrace_skip (show containsSub ucsLog missingBracePat = false by decide),
    branchRunaway_skip (show containsSub ucsLog runawayArgPat = false by decide)
      (show containsSub ucsLog ttlSpacingPat = false by decide)
      (show containsSub ucsLog ttlFormatPat = false by decide)
      (show containsSub ucsLog ttlRowPat = false by decide),
    branchParagraphEnded_skip (show containsSub ucsLog paragraphEndedPat = false by decide),
    branchUCS_on_ucsLog,
    branchExtraBrace_skip (show containsSub ucsLog extraBracePat = false by decide)
      (show containsSub ucsLog forgottenDollarPat = false by decide),
    branchMissingDollar_skip (show containsSub ucsLog missingDollarPat = false by decide)]
  simp

/-- Claim C5: for a compiler that fails on every invocation with a diagnostic
matching a fixable pattern, compileLatexWithRetry with maxRetries = 2 performs
exactly 3 compiler invocations (2 recompilations after the first), terminates
with a failure, and its fixesApplied list holds exactly one entry per applied
error-driven fix — exactly 2 such entries (plus the sanitizer entry when the
pre-sanitize pass changed the document). -/
theorem c5_retry_bound_witness :
    (compileLatexWithRetry
      ((fun _ => Except.error ucsLog) : List Char → Except (List Char) Unit)
      exDocPlain 2).invocations = 3 ∧
    (∃ e, (compileLatexWithRetry
      ((fun _ => Except.error ucsLog) : List Char → Except (List Char) Unit)
      exDocPlain 2).result = Except.error e) ∧
    (compileLatexWithRetry
      ((fun _ => Except.error ucsLog) : List Char → Except (List Char) Unit)
      exDocPlain 2).fixesApplied.length =
      (if sanitizeLatexCh exDocPlain = exDocPlain then 0 else 1) + 2 :=
  c5_retry_bound ((fun _ => Except.error ucsLog) : List Char → Except (List Char) Unit)
    exDocPlain (fun d => ⟨ucsLog, rfl, ucs_always_fixed d⟩)

theorem guardGo_error {α : Type}
    (cr : List Char → Except (List Char) (α × List Char × List (List Char)))
    (pageCount : α → Nat) (refine : List Char → List Char)
    {ma fuel attempt : Nat} {latex : List Char} {cc rc : Nat} {e : List Char}
    (hc : cr latex = Except.error e) :
    guardGo cr pageCount refine ma (fuel + 1) attempt latex cc rc =
      ⟨Except.error e, cc + 1, rc⟩ := by
  rw [guardGo.eq_def]
  simp [hc]

theorem guardGo_ok {α : Type}
    (cr : List Char → Except (List Char) (α × List Char × List (List Char)))
    (pageCount : α → Nat) (refine : List Char → List Char)
    {ma fuel attempt : Nat} {latex : List Char} {cc rc : Nat}
    {pdf : α} {newLatex : List Char} {fx : List (List Char)}
    (hc : cr latex = Except.ok (pdf, newLatex, fx))
    (hle : pageCount pdf ≤ 2) :
    guardGo cr pageCount refine ma (fuel + 1) attempt latex cc rc =
      ⟨Except.ok (pdf, newLatex, pageCount pdf), cc + 1, rc⟩ := by
  rw [guardGo.eq_def]
  simp [hc, hle]

theorem guardGo_last {α : Type}
    (cr : List Char → Except (List Char) (α × List Char × List (List Char)))
    (pageCount : α → Nat) (refine : List Char → List Char)
    {ma fuel attempt : Nat} {latex : List Char} {cc rc : Nat}
    {pdf : α} {newLatex : List Char} {fx : List (List Char)}
    (hc : cr latex = Except.ok (pdf, newLatex, fx))
    (hgt : ¬ pageCount pdf ≤ 2) (heq : attempt = ma) :
    guardGo cr pageCount refine ma (fuel + 1) attempt latex cc rc =
      ⟨Except.error (pageErrMsg ma), cc + 1, rc⟩ := by
  rw [guardGo.eq_def]
  simp [hc, hgt, heq]

theorem guardGo_refine {α : Type}
    (cr : List Char → Except (List Char) (α × List Char × List (List Char)))
    (pageCount : α → Nat) (refine : List Char → List Char)
    {ma fuel attempt : Nat} {latex : List Char} {cc rc : Nat}
    {pdf : α} {newLatex : List Char} {fx : List (List Char)}
    (hc : cr latex = Except.ok (pdf, newLatex, fx))
    (hgt : ¬ pageCount pdf ≤ 2) (hne : ¬ attempt = ma) :
    guardGo cr pageCount refine ma (fuel + 1) attempt latex cc rc =
      guardGo cr pageCount refine ma fuel (attempt + 1) (refine newLatex)
        (cc + 1) (rc + 1) := by
  rw [guardGo.eq_def]
  simp [hc, hgt, hne]

/-- Claim C6: the page-count guard accepts and returns the result exactly when
the compiled PDF page count is at most 2 (any accepted result has count ≤ 2,
and an in-budget first compile is returned with no refinement); for a compiler
that always reports pageCount = 3 it performs exactly one generative
compression round and two compiles, then terminates with the page-budget
error — it never loops beyond its fixed attempt bound. -/
theorem c6_page_guard {α : Type}
    (compileRetry : List Char → Except (List Char) (α × List Char × List (List Char)))
    (pageCount : α → Nat) (refine : List Char → List Char) (s : List Char) :
    (∀ pdf lat pc, (compileWithTwoPageGuard compileRetry pageCount refine s).result =
        Except.ok (pdf, lat, pc) → pc ≤ 2) ∧
    (∀ pdf lat fx, compileRetry s = Except.ok (pdf, lat, fx) → pageCount pdf ≤ 2 →
      (compileWithTwoPageGuard compileRetry pageCount refine s).result =
        Except.ok (pdf, lat, pageCount pdf) ∧
      (compileWithTwoPageGuard compileRetry pageCount refine s).refineCalls = 0) ∧
    ((∀ d, ∃ pdf lat fx, compileRetry d = Except.ok (pdf, lat, fx) ∧ pageCount pdf = 3) →
      (compileWithTwoPageGuard compileRetry pageCount refine s).refineCalls = 1 ∧
      (compileWithTwoPageGuard compileRetry pageCount refine s).compileCalls = 2 ∧
      (compileWithTwoPageGuard compileRetry pageCount refine s).result =
        Except.error (pageErrMsg 2)) := by
  refine ⟨?_, ?_, ?_⟩
  · intro pdf lat pc h
    unfold compileWithTwoPageGuard at h
    cases hcr : compileRetry s with
    | error e =>
      rw [guardGo_error compileRetry pageCount refine hcr] at h
      simp at h
    | ok t =>
      obtain ⟨pdf1, lat1, fx1⟩ := t
      by_cases h1 : pageCount pdf1 ≤ 2
      · rw [guardGo_ok compileRetry pageCount refine hcr h1] at h
        simp at h
        omega
      · rw [guardGo_refine compileRetry pageCount refine hcr h1
          (show ¬ (1 : Nat) = 2 by decide)] at h
        cases hcr2 : compileRetry (refine lat1) with
        | error e =>
          rw [guardGo_error compileRetry pageCount refine hcr2] at h
          simp at h
        | ok t2 =>
          obtain ⟨pdf2, lat2, fx2⟩ := t2
          by_cases h2 : pageCount pdf2 ≤ 2
          · rw [guardGo_ok compileRetry pageCount refine hcr2 h2] at h
            simp at h
            omega
          · rw [guardGo_last compileRetry pageCount refine hcr2 h2
              (show (1 + 1 : Nat) = 2 from rfl)] at h
            simp at h
  · intro pdf lat fx hcr hle
    unfold compileWithTwoPageGuard
    rw [guardGo_ok compileRetry pageCount refine hcr hle]
    exact ⟨rfl, rfl⟩
  · intro H
    obtain ⟨pdf1, lat1, fx1, hcr1, hpc1⟩ := H s
    obtain ⟨pdf2, lat2, fx2, hcr2, hpc2⟩ := H (refine lat1)
    have hrun : compileWithTwoPageGuard compileRetry pageCount refine s =
        ⟨Except.error (pageErrMsg 2), 2, 1⟩ := by
      unfold compileWithTwoPageGuard
      rw [guardGo_refine compileRetry pageCount refine hcr1 (by omega)
        (show ¬ (1 : Nat) = 2 by decide)]
      rw [guardGo_last compileRetry pageCount refine hcr2 (by omega)
        (show (1 + 1 : Nat) = 2 from rfl)]
    rw [hrun]
    exact ⟨rfl, rfl, rfl⟩

/-- Claim C6: the page-count guard accepts and returns the result exactly when
the compiled PDF page count is at most 2 (any accepted result has count ≤ 2,
and an in-budget first compile is returned with no refinement); for a compiler
that always reports pageCount = 3 it performs exactly one generative
compression round and two compiles, then terminates with the page-budget
error — it never loops beyond its fixed attempt bound. -/
theorem c6_page_guard_witness :
    (compileWithTwoPageGuard
      ((fun d => Except.ok ((), d, [])) :
        List Char → Except (List Char) (Unit × List Char × List (List Char)))
      (fun _ => 3) (fun d => d) exDocPlain).refineCalls = 1 ∧
    (compileWithTwoPageGuard
      ((fun d => Except.ok ((), d, [])) :
        List Char → Except (List Char) (Unit × List Char × List (List Char)))
      (fun _ => 3) (fun d => d) exDocPlain).compileCalls = 2 ∧
    (compileWithTwoPageGuard
      ((fun d => Except.ok ((), d, [])) :
        List Char → Except (List Char) (Unit × List Char × List (List Char)))
      (fun _ => 3) (fun d => d) exDocPlain).result = Except.error (pageErrMsg 2) :=
  (c6_page_guard
    ((fun d => Except.ok ((), d, [])) :
      List Char → Except (List Char) (Unit × List Char × List (List Char)))
    (fun _ => 3) (fun d => d) exDocPlain).2.2
    (fun d => ⟨(), d, [], rfl, rfl⟩)
